import Mathlib

/-!
# Intrusive circular doubly-linked list (`list.h`, `list.c`)

A shallow embedding of the linkage primitive of `src/list.h` and of the demo
driver of `src/list.c`.

* A pointer to a `struct list_head` is a natural number; `NULL` is `0`.
* The heap maps every address to the `list_head` stored there. Every non-null
  address is the address of some `list_head`; dereferencing `NULL` is the
  error `Err.nullDeref`.
* `container_of`/`list_entry` is constant offset arithmetic; an entry is
  identified with the address of its embedded `list_head`.
* The `for` loops of the iteration macros take a fuel argument; running out of
  fuel is the error `Err.outOfFuel`.
-/

namespace LinuxList

/-! ## Memory model -/

/-- Address of a `struct list_head`. -/
abbrev Ptr := Nat

/-- The null pointer. -/
def NULL : Ptr := 0

/-- The linkage node: `struct list_head { struct list_head *next, *prev; }`. -/
structure list_head where
  next : Ptr
  prev : Ptr
deriving DecidableEq, Repr

/-- The heap: the `list_head` stored at each address. -/
abbrev Heap := Ptr → list_head

/-- Ways in which a run of the embedded code fails. -/
inductive Err where
  | nullDeref
  | outOfFuel
deriving DecidableEq, Repr

deriving instance DecidableEq for Except

/-- Raw write `p->next = v`. -/
def set_next (p v : Ptr) (h : Heap) : Heap :=
  fun a => if a = p then { next := v, prev := (h a).prev } else h a

/-- Raw write `p->prev = v`. -/
def set_prev (p v : Ptr) (h : Heap) : Heap :=
  fun a => if a = p then { next := (h a).next, prev := v } else h a

/-- Read `p->next`; fails on a null `p`. -/
def load_next (p : Ptr) (h : Heap) : Except Err Ptr :=
  if p = NULL then .error .nullDeref else .ok (h p).next

/-- Read `p->prev`; fails on a null `p`. -/
def load_prev (p : Ptr) (h : Heap) : Except Err Ptr :=
  if p = NULL then .error .nullDeref else .ok (h p).prev

/-- Write `p->next = v`; fails on a null `p`. -/
def store_next (p v : Ptr) (h : Heap) : Except Err Heap :=
  if p = NULL then .error .nullDeref else .ok (set_next p v h)

/-- Write `p->prev = v`; fails on a null `p`. -/
def store_prev (p v : Ptr) (h : Heap) : Except Err Heap :=
  if p = NULL then .error .nullDeref else .ok (set_prev p v h)

/-! ## The primitive (`list.h`) -/

/-- `INIT_LIST_HEAD(list)`: `list->next = list; list->prev = list;`. -/
def INIT_LIST_HEAD (list : Ptr) (h : Heap) : Except Err Heap := do
  let h ← store_next list list h
  store_prev list list h

/-- `__list_add(new_node, prev, next)`:
`next->prev = new_node; new_node->next = next; new_node->prev = prev; prev->next = new_node;`. -/
def __list_add (new_node prev next : Ptr) (h : Heap) : Except Err Heap := do
  let h ← store_prev next new_node h
  let h ← store_next new_node next h
  let h ← store_prev new_node prev h
  store_next prev new_node h

/-- `list_add(new_node, head)`: `__list_add(new_node, head, head->next)`. -/
def list_add (new_node head : Ptr) (h : Heap) : Except Err Heap := do
  let n ← load_next head h
  __list_add new_node head n h

/-- `list_add_tail(new_node, head)`: `__list_add(new_node, head->prev, head)`. -/
def list_add_tail (new_node head : Ptr) (h : Heap) : Except Err Heap := do
  let p ← load_prev head h
  __list_add new_node p head h

/-- `__list_del(prev, next)`: `next->prev = prev; prev->next = next;`. -/
def __list_del (prev next : Ptr) (h : Heap) : Except Err Heap := do
  let h ← store_prev next prev h
  store_next prev next h

/-- `list_del(entry)`: `__list_del(entry->prev, entry->next); entry->next = NULL;
entry->prev = NULL;`. -/
def list_del (entry : Ptr) (h : Heap) : Except Err Heap := do
  let p ← load_prev entry h
  let n ← load_next entry h
  let h ← __list_del p n h
  let h ← store_next entry NULL h
  store_prev entry NULL h

/-- `list_del_init(entry)`: `__list_del(entry->prev, entry->next); INIT_LIST_HEAD(entry);`. -/
def list_del_init (entry : Ptr) (h : Heap) : Except Err Heap := do
  let p ← load_prev entry h
  let n ← load_next entry h
  let h ← __list_del p n h
  INIT_LIST_HEAD entry h

/-- `list_move(list, head)`: `__list_del(list->prev, list->next); list_add(list, head);`. -/
def list_move (list head : Ptr) (h : Heap) : Except Err Heap := do
  let p ← load_prev list h
  let n ← load_next list h
  let h ← __list_del p n h
  list_add list head h

/-- `list_move_tail(list, head)`: `__list_del(list->prev, list->next);
list_add_tail(list, head);`. -/
def list_move_tail (list head : Ptr) (h : Heap) : Except Err Heap := do
  let p ← load_prev list h
  let n ← load_next list h
  let h ← __list_del p n h
  list_add_tail list head h

/-- `list_empty(head)`: `return head->next == head;`. -/
def list_empty (head : Ptr) (h : Heap) : Except Err Bool := do
  let n ← load_next head h
  pure (decide (n = head))

/-- `__list_splice(list, prev, next)`:
`first = list->next; last = list->prev; first->prev = prev; prev->next = first;
last->next = next; next->prev = last;`. -/
def __list_splice (list prev next : Ptr) (h : Heap) : Except Err Heap := do
  let first ← load_next list h
  let last ← load_prev list h
  let h ← store_prev first prev h
  let h ← store_next prev first h
  let h ← store_next last next h
  store_prev next last h

/-- `list_splice(list, head)`:
`if (!list_empty(list)) __list_splice(list, head, head->next);`. -/
def list_splice (list head : Ptr) (h : Heap) : Except Err Heap := do
  let e ← list_empty list h
  if !e then
    let n ← load_next head h
    __list_splice list head n h
  else
    pure h

/-- `list_splice_tail(list, head)`:
`if (!list_empty(list)) __list_splice(list, head->prev, head);`. -/
def list_splice_tail (list head : Ptr) (h : Heap) : Except Err Heap := do
  let e ← list_empty list h
  if !e then
    let p ← load_prev head h
    __list_splice list p head h
  else
    pure h

/-- `list_splice_init(list, head)`:
`if (!list_empty(list)) { __list_splice(list, head, head->next); INIT_LIST_HEAD(list); }`. -/
def list_splice_init (list head : Ptr) (h : Heap) : Except Err Heap := do
  let e ← list_empty list h
  if !e then
    let n ← load_next head h
    let h ← __list_splice list head n h
    INIT_LIST_HEAD list h
  else
    pure h

/-- `list_splice_tail_init(list, head)`:
`if (!list_empty(list)) { __list_splice(list, head->prev, head); INIT_LIST_HEAD(list); }`. -/
def list_splice_tail_init (list head : Ptr) (h : Heap) : Except Err Heap := do
  let e ← list_empty list h
  if !e then
    let p ← load_prev head h
    let h ← __list_splice list p head h
    INIT_LIST_HEAD list h
  else
    pure h

/-! ## Iteration macros (`list.h`) -/

/-- The loop of `list_for_each_entry` from cursor `pos` on: while
`&pos->member != head`, run the body on `pos`, then `pos = list_next_entry(pos, member)`.
The body may change its own state `acc` and the heap. -/
def for_each_from {σ : Type} (body : Ptr → σ → Heap → Except Err (σ × Heap)) (head : Ptr) :
    Nat → Ptr → σ → Heap → Except Err (σ × Heap)
  | 0, _, _, _ => .error .outOfFuel
  | fuel + 1, pos, acc, h =>
    if pos = head then .ok (acc, h)
    else do
      let r ← body pos acc h
      let nxt ← load_next pos r.2
      for_each_from body head fuel nxt r.1 r.2

/-- `list_for_each_entry(pos, head, member)`: `pos = list_first_entry(head, ...)`, then the
loop. -/
def list_for_each_entry {σ : Type} (body : Ptr → σ → Heap → Except Err (σ × Heap))
    (head : Ptr) (fuel : Nat) (acc : σ) (h : Heap) : Except Err (σ × Heap) := do
  let first ← load_next head h
  for_each_from body head fuel first acc h

/-- The loop of `list_for_each_entry_reverse` from cursor `pos` on. -/
def for_each_reverse_from {σ : Type} (body : Ptr → σ → Heap → Except Err (σ × Heap))
    (head : Ptr) : Nat → Ptr → σ → Heap → Except Err (σ × Heap)
  | 0, _, _, _ => .error .outOfFuel
  | fuel + 1, pos, acc, h =>
    if pos = head then .ok (acc, h)
    else do
      let r ← body pos acc h
      let prv ← load_prev pos r.2
      for_each_reverse_from body head fuel prv r.1 r.2

/-- `list_for_each_entry_reverse(pos, head, member)`. -/
def list_for_each_entry_reverse {σ : Type} (body : Ptr → σ → Heap → Except Err (σ × Heap))
    (head : Ptr) (fuel : Nat) (acc : σ) (h : Heap) : Except Err (σ × Heap) := do
  let last ← load_prev head h
  for_each_reverse_from body head fuel last acc h

/-- What the mutation-safe iteration macro itself does, in program order: it reads the
`next` field of a node, or it hands an entry to the loop body. -/
inductive Event where
  | read (p : Ptr)
  | body (p : Ptr)
deriving DecidableEq, Repr

/-- The loop of `list_for_each_entry_safe` with cursor `pos` and saved successor `n`: while
`&pos->member != head`, run the body on `pos`, then `pos = n, n = list_next_entry(n, member)`.
The events of the macro are appended to `tr`. -/
def for_each_safe_from {σ : Type} (body : Ptr → σ → Heap → Except Err (σ × Heap))
    (head : Ptr) : Nat → Ptr → Ptr → σ → Heap → List Event → Except Err (σ × Heap × List Event)
  | 0, _, _, _, _, _ => .error .outOfFuel
  | fuel + 1, pos, n, acc, h, tr =>
    if pos = head then .ok (acc, h, tr)
    else do
      let r ← body pos acc h
      let n2 ← load_next n r.2
      for_each_safe_from body head fuel n n2 r.1 r.2 (tr ++ [Event.body pos, Event.read n])

/-- `list_for_each_entry_safe(pos, n, head, member)` together with the log of its events:
`pos = list_first_entry(head, ...)`, `n = list_next_entry(pos, member)`, then the loop. -/
def list_for_each_entry_safe_traced {σ : Type}
    (body : Ptr → σ → Heap → Except Err (σ × Heap))
    (head : Ptr) (fuel : Nat) (acc : σ) (h : Heap) : Except Err (σ × Heap × List Event) := do
  let pos ← load_next head h
  let n ← load_next pos h
  for_each_safe_from body head fuel pos n acc h [Event.read head, Event.read pos]

/-- `list_for_each_entry_safe(pos, n, head, member)`: the final body state and heap. -/
def list_for_each_entry_safe {σ : Type} (body : Ptr → σ → Heap → Except Err (σ × Heap))
    (head : Ptr) (fuel : Nat) (acc : σ) (h : Heap) : Except Err (σ × Heap) := do
  let r ← list_for_each_entry_safe_traced body head fuel acc h
  pure (r.1, r.2.1)

/-- Forward iteration that yields each entry: `list_for_each_entry` with a body that
appends the cursor to the output. -/
def forward (head : Ptr) (fuel : Nat) (h : Heap) : Except Err (List Ptr) := do
  let r ← list_for_each_entry (fun pos (acc : List Ptr) h => .ok (acc ++ [pos], h)) head fuel [] h
  pure r.1

/-- Reverse iteration that yields each entry. -/
def backward (head : Ptr) (fuel : Nat) (h : Heap) : Except Err (List Ptr) := do
  let r ← list_for_each_entry_reverse (fun pos (acc : List Ptr) h => .ok (acc ++ [pos], h))
    head fuel [] h
  pure r.1

/-- Loop body of `del` in `list.c`, for an arbitrary test `p` on the entry:
`if (p(node)) list_del(&node->list);`. -/
def del_body (p : Ptr → Bool) (pos : Ptr) (acc : Unit) (h : Heap) : Except Err (Unit × Heap) :=
  if p pos then do
    let h ← list_del pos h
    pure (acc, h)
  else pure (acc, h)

/-! ## The demo driver (`list.c`) -/

/-- Address of the static `list_header`. -/
def list_header : Ptr := 1

/-- Program state of the demo: the linkage heap, the `value` field of each
`struct list_node` (keyed by the address of its embedded `list`), and the next address
`malloc` hands out. `malloc` is libc, not part of the repository: it is taken to return
successive fresh non-null addresses. -/
structure Demo where
  heap : Heap
  value : Ptr → Int
  brk : Ptr

/-- Initial state: `static LIST_HEAD(list_header)`, everything else zeroed. -/
def Demo.init : Demo where
  heap := fun a => if a = list_header then { next := list_header, prev := list_header }
    else { next := NULL, prev := NULL }
  value := fun _ => 0
  brk := 2

/-- `print()`: the values printed before the final `NULL`. -/
def print (fuel : Nat) (s : Demo) : Except Err (List Int) := do
  let e ← list_empty list_header s.heap
  if !e then
    let r ← list_for_each_entry
      (fun node (out : List Int) h => .ok (out ++ [s.value node], h)) list_header fuel [] s.heap
    pure r.1
  else pure []

/-- `insert(val)`: `node = malloc(..); node->value = val; list_add(&node->list, &list_header);`. -/
def insert (val : Int) (s : Demo) : Except Err Demo := do
  let node := s.brk
  let value := fun a => if a = node then val else s.value a
  let h ← list_add node list_header s.heap
  pure { heap := h, value := value, brk := s.brk + 1 }

/-- `del(val)`: under `!list_empty(&list_header)`, a `list_for_each_entry_safe` pass with body
`if (node->value == val) list_del(&node->list);`. -/
def del (fuel : Nat) (val : Int) (s : Demo) : Except Err Demo := do
  let e ← list_empty list_header s.heap
  if !e then
    let r ← list_for_each_entry_safe (del_body (fun node => decide (s.value node = val)))
      list_header fuel () s.heap
    pure { s with heap := r.2 }
  else pure s

/-- The ten calls `insert(0) .. insert(9)` of `main`. -/
def main_inserts (s : Demo) : Except Err Demo :=
  (List.range 10).foldlM (fun s i => insert (Int.ofNat i) s) s

/-- `main()`: the two printed lines. -/
def main (fuel : Nat) : Except Err (List Int × List Int) := do
  let s ← main_inserts Demo.init
  let out1 ← print fuel s
  let s ← del fuel 3 s
  let s ← del fuel 6 s
  let s ← del fuel 9 s
  let out2 ← print fuel s
  pure (out1, out2)

/-! ## Well-formed lists -/

/-- Nodes `u`, `v` are consecutive: `u->next == v` and `v->prev == u`. -/
def Linked (h : Heap) (u v : Ptr) : Prop := (h u).next = v ∧ (h v).prev = u

instance (h : Heap) (u v : Ptr) : Decidable (Linked h u v) :=
  inferInstanceAs (Decidable ((h u).next = v ∧ (h v).prev = u))

/-- Walking from `a` through the nodes of `l`, every step is a link. -/
def Links (h : Heap) : Ptr → List Ptr → Prop
  | _, [] => True
  | a, b :: l => Linked h a b ∧ Links h b l

instance decLinks (h : Heap) : ∀ (a : Ptr) (l : List Ptr), Decidable (Links h a l)
  | _, [] => isTrue trivial
  | _, b :: l => @instDecidableAnd _ _ _ (decLinks h b l)

/-- The list anchored at `head` is well-formed with entries `es` in forward order:
`head` and the entries are non-null and pairwise distinct, and walking `next` from `head`
passes through `es` and returns to `head`, with `prev` the inverse on every step. -/
def WellFormed (h : Heap) (head : Ptr) (es : List Ptr) : Prop :=
  head ≠ NULL ∧ NULL ∉ es ∧ (head :: es).Nodup ∧ Links h head (es ++ [head])

instance (h : Heap) (head : Ptr) (es : List Ptr) : Decidable (WellFormed h head es) :=
  inferInstanceAs (Decidable (head ≠ NULL ∧ NULL ∉ es ∧ (head :: es).Nodup ∧
    Links h head (es ++ [head])))

/-- Zero-initialised memory: every `next` and `prev` is `NULL`. -/
def zero_heap : Heap := fun _ => { next := NULL, prev := NULL }

/-- A sample heap: the list anchored at `1` with entries `2, 3`, the list anchored at `10`
with entries `11, 12`, and the empty list anchored at `20`. -/
def sample_heap : Heap := fun a =>
  match a with
  | 1 => { next := 2, prev := 3 }
  | 2 => { next := 3, prev := 1 }
  | 3 => { next := 1, prev := 2 }
  | 10 => { next := 11, prev := 12 }
  | 11 => { next := 12, prev := 10 }
  | 12 => { next := 10, prev := 11 }
  | 20 => { next := 20, prev := 20 }
  | _ => { next := NULL, prev := NULL }

/-! ## Heaps after the primitive operations, cycles, consistency and ring membership -/

/-- Heap after `__list_add(x, p, n)` on non-null arguments. -/
def add_heap (x p n : Ptr) (h : Heap) : Heap :=
  set_next p x (set_prev x p (set_next x n (set_prev n x h)))

/-- Heap after `__list_del(p, n)` on non-null arguments. -/
def del_heap (p n : Ptr) (h : Heap) : Heap :=
  set_next p n (set_prev n p h)

/-- Heap after `list_del(e)` on a non-null entry with non-null neighbours. -/
def list_del_heap (e : Ptr) (h : Heap) : Heap :=
  set_prev e NULL (set_next e NULL (del_heap (h e).prev (h e).next h))

/-- Heap after `__list_splice` with `first`, `last` read from the source head. -/
def splice_heap (first last p n : Ptr) (h : Heap) : Heap :=
  set_prev n last (set_next last n (set_next p first (set_prev first p h)))

/-- A cyclic sequence of nodes: consecutive nodes are linked and the last is linked back to
the first. -/
def Cyc (h : Heap) (c : List Ptr) : Prop :=
  List.Chain' (Linked h) c ∧ ∀ p ∈ c.getLast?, ∀ n ∈ c.head?, Linked h p n

/-- The state is consistent at `head` with cycle `head :: es`: the nodes are non-null and
pairwise distinct, following `next` from `head` passes through `es` and returns to `head`,
and every node `y` on the cycle satisfies `y->next->prev == y` and `y->prev->next == y`. -/
def ConsistentWith (h : Heap) (head : Ptr) (es : List Ptr) : Prop :=
  head ≠ NULL ∧ NULL ∉ es ∧ (head :: es).Nodup ∧
    (head :: es).map (fun y => (h y).next) = es ++ [head] ∧
    ∀ y ∈ head :: es, (h (h y).next).prev = y ∧ (h (h y).prev).next = y

instance (h : Heap) (head : Ptr) (es : List Ptr) : Decidable (ConsistentWith h head es) :=
  inferInstanceAs (Decidable (head ≠ NULL ∧ NULL ∉ es ∧ (head :: es).Nodup ∧
    (head :: es).map (fun y => (h y).next) = es ++ [head] ∧
    ∀ y ∈ head :: es, (h (h y).next).prev = y ∧ (h (h y).prev).next = y))

/-- The state is consistent at `head`. -/
def Consistent (h : Heap) (head : Ptr) : Prop := ∃ es, ConsistentWith h head es

/-- Node `y` is a member of a well-formed ring. -/
def InRing (h : Heap) (y : Ptr) : Prop := ∃ head es, WellFormed h head es ∧ y ∈ head :: es

end LinuxList

/-! ## Basic facts about the memory model -/

namespace LinuxList

@[simp] theorem bind_ok {α β : Type} (x : α) (f : α → Except Err β) :
    (Except.ok x >>= f) = f x := rfl

@[simp] theorem bind_error {α β : Type} (e : Err) (f : α → Except Err β) :
    (Except.error e >>= f) = Except.error e := rfl

@[simp] theorem pure_eq_ok {α : Type} (x : α) : (pure x : Except Err α) = Except.ok x := rfl

@[simp] theorem set_next_next (p v : Ptr) (h : Heap) (a : Ptr) :
    (set_next p v h a).next = if a = p then v else (h a).next := by
  unfold set_next; split <;> rfl

@[simp] theorem set_next_prev (p v : Ptr) (h : Heap) (a : Ptr) :
    (set_next p v h a).prev = (h a).prev := by
  unfold set_next; split <;> rfl

@[simp] theorem set_prev_prev (p v : Ptr) (h : Heap) (a : Ptr) :
    (set_prev p v h a).prev = if a = p then v else (h a).prev := by
  unfold set_prev; split <;> rfl

@[simp] theorem set_prev_next (p v : Ptr) (h : Heap) (a : Ptr) :
    (set_prev p v h a).next = (h a).next := by
  unfold set_prev; split <;> rfl

theorem heap_ext {h1 h2 : Heap} (hn : ∀ a, (h1 a).next = (h2 a).next)
    (hp : ∀ a, (h1 a).prev = (h2 a).prev) : h1 = h2 := by
  funext a
  have e1 := hn a
  have e2 := hp a
  cases hh1 : h1 a
  cases hh2 : h2 a
  simp_all

theorem load_next_ok {p : Ptr} (hp : p ≠ NULL) (h : Heap) :
    load_next p h = .ok (h p).next := by simp [load_next, hp]

theorem load_prev_ok {p : Ptr} (hp : p ≠ NULL) (h : Heap) :
    load_prev p h = .ok (h p).prev := by simp [load_prev, hp]

theorem store_next_ok {p : Ptr} (hp : p ≠ NULL) (v : Ptr) (h : Heap) :
    store_next p v h = .ok (set_next p v h) := by simp [store_next, hp]

theorem store_prev_ok {p : Ptr} (hp : p ≠ NULL) (v : Ptr) (h : Heap) :
    store_prev p v h = .ok (set_prev p v h) := by simp [store_prev, hp]

theorem list_add_raw_ok {x p n : Ptr} (hx : x ≠ NULL) (hp : p ≠ NULL) (hn : n ≠ NULL)
    (h : Heap) : __list_add x p n h = .ok (add_heap x p n h) := by
  simp [__list_add, add_heap, store_next_ok, store_prev_ok, hx, hp, hn]

theorem list_del_raw_ok {p n : Ptr} (hp : p ≠ NULL) (hn : n ≠ NULL) (h : Heap) :
    __list_del p n h = .ok (del_heap p n h) := by
  simp [__list_del, del_heap, store_next_ok, store_prev_ok, hp, hn]

/-! ## Chains of linked nodes -/

theorem cyc_rotate (h : Heap) (l1 l2 : List Ptr) : Cyc h (l1 ++ l2) ↔ Cyc h (l2 ++ l1) := by
  rcases l1 with _ | ⟨a, l1⟩
  · simp
  rcases l2 with _ | ⟨b, l2⟩
  · simp
  unfold Cyc
  rw [List.chain'_append, List.chain'_append,
    List.getLast?_append_of_ne_nil _ (List.cons_ne_nil b l2),
    List.getLast?_append_of_ne_nil _ (List.cons_ne_nil a l1)]
  simp only [List.cons_append, List.head?_cons, Option.mem_def, Option.some.injEq,
    forall_eq']
  tauto

theorem links_iff_chain (h : Heap) (a : Ptr) (l : List Ptr) :
    Links h a l ↔ List.Chain (Linked h) a l := by
  induction l generalizing a with
  | nil => simp [Links]
  | cons b l ih => simp [Links, ih]

theorem chain_iff_cyc (h : Heap) (head : Ptr) (es : List Ptr) :
    Links h head (es ++ [head]) ↔ Cyc h (head :: es) := by
  rw [links_iff_chain]
  show List.Chain' (Linked h) ((head :: es) ++ [head]) ↔ _
  rw [List.chain'_append]
  unfold Cyc
  simp

theorem wellFormed_iff (h : Heap) (head : Ptr) (es : List Ptr) :
    WellFormed h head es ↔
      head ≠ NULL ∧ NULL ∉ es ∧ (head :: es).Nodup ∧ Cyc h (head :: es) := by
  unfold WellFormed; rw [chain_iff_cyc]

theorem chain'_frame {h h2 : Heap} {l : List Ptr} (hc : List.Chain' (Linked h) l)
    (hn : ∀ u ∈ l.dropLast, (h2 u).next = (h u).next)
    (hp : ∀ v ∈ l.tail, (h2 v).prev = (h v).prev) : List.Chain' (Linked h2) l := by
  induction l with
  | nil => exact List.chain'_nil
  | cons a t ih =>
    rcases t with _ | ⟨b, t⟩
    · exact List.chain'_singleton a
    · rw [List.chain'_cons] at hc ⊢
      refine ⟨⟨?_, ?_⟩, ih hc.2 ?_ ?_⟩
      · rw [hn a (by simp)]; exact hc.1.1
      · rw [hp b (by simp)]; exact hc.1.2
      · intro u hu; exact hn u (by simp [List.dropLast_cons_of_ne_nil, hu])
      · intro v hv; exact hp v (by simp [List.mem_of_mem_tail hv])

theorem ne_last_of_mem_dropLast {l : List Ptr} {p u : Ptr} (hd : l.Nodup)
    (hl : l.getLast? = some p) (hu : u ∈ l.dropLast) : u ≠ p := by
  obtain ⟨m, rfl⟩ := List.getLast?_eq_some_iff.1 hl
  rw [List.dropLast_concat] at hu
  rintro rfl
  have := List.nodup_append.1 hd
  exact this.2.2 hu (by simp)

theorem ne_head_of_mem_tail {l : List Ptr} {n v : Ptr} (hd : l.Nodup)
    (hl : l.head? = some n) (hv : v ∈ l.tail) : v ≠ n := by
  obtain ⟨t, rfl⟩ := List.head?_eq_some_iff.1 hl
  rintro rfl
  exact (List.nodup_cons.1 hd).1 hv

theorem cyc_frame {h h2 : Heap} {c : List Ptr} (hc : Cyc h c) (hf : ∀ u ∈ c, h2 u = h u) :
    Cyc h2 c := by
  refine ⟨chain'_frame hc.1 (fun u hu => by rw [hf u (List.mem_of_mem_dropLast hu)])
    (fun v hv => by rw [hf v (List.mem_of_mem_tail hv)]), ?_⟩
  intro p hp n hn
  have hpm : p ∈ c := List.mem_of_mem_getLast? hp
  have hnm : n ∈ c := List.mem_of_mem_head? hn
  have := hc.2 p hp n hn
  unfold Linked at this ⊢
  rw [hf p hpm, hf n hnm]; exact this

/-- Inserting a fresh node between the last and the first node of a cycle. -/
theorem cyc_insert {h : Heap} {c : List Ptr} {x n p : Ptr} (hd : c.Nodup) (hx : x ∉ c)
    (hn : c.head? = some n) (hp : c.getLast? = some p) (hc : Cyc h c) :
    Cyc (add_heap x p n h) (c ++ [x]) := by
  have hpm : p ∈ c := List.mem_of_mem_getLast? hp
  have hnm : n ∈ c := List.mem_of_mem_head? hn
  have hxp : x ≠ p := fun e => hx (e ▸ hpm)
  have hnx : n ≠ x := fun e => hx (e ▸ hnm)
  have hne : c ≠ [] := List.ne_nil_of_mem hpm
  refine ⟨List.chain'_append.2 ⟨chain'_frame hc.1 ?_ ?_, List.chain'_singleton x, ?_⟩, ?_⟩
  · intro u hu
    have h1 : u ≠ p := ne_last_of_mem_dropLast hd hp hu
    have h2 : u ≠ x := fun e => hx (e ▸ List.mem_of_mem_dropLast hu)
    simp [add_heap, h1, h2]
  · intro v hv
    have h1 : v ≠ n := ne_head_of_mem_tail hd hn hv
    have h2 : v ≠ x := fun e => hx (e ▸ List.mem_of_mem_tail hv)
    simp [add_heap, h1, h2]
  · intro u hu y hy
    rw [hp] at hu
    simp only [Option.mem_def, Option.some.injEq, List.head?_cons] at hu hy
    subst hu; subst hy
    simp [Linked, add_heap]
  · intro u hu y hy
    rw [List.getLast?_concat] at hu
    rw [List.head?_append_of_ne_nil _ hne, hn] at hy
    simp only [Option.mem_def, Option.some.injEq] at hu hy
    subst hu; subst hy
    simp [Linked, add_heap, hxp, hnx]

/-- The neighbours of the first node of a cycle. -/
theorem cyc_cons_links {h : Heap} {e : Ptr} {c : List Ptr} {n p : Ptr}
    (hn : c.head? = some n) (hp : c.getLast? = some p) (hc : Cyc h (e :: c)) :
    (h e).next = n ∧ (h e).prev = p ∧ (h p).next = e ∧ (h n).prev = e := by
  obtain ⟨t, rfl⟩ := List.head?_eq_some_iff.1 hn
  have h1 := (List.chain'_cons.1 hc.1).1
  have h2 := hc.2 p (by rw [List.getLast?_cons_cons]; exact hp) e (by simp)
  exact ⟨h1.1, h2.2, h2.1, h1.2⟩

/-- Unlinking the first node of a cycle. -/
theorem cyc_delete {h : Heap} {e : Ptr} {c : List Ptr} {n p : Ptr} (hd : c.Nodup)
    (hn : c.head? = some n) (hp : c.getLast? = some p) (hc : Cyc h (e :: c)) :
    Cyc (del_heap p n h) c := by
  have hcc : List.Chain' (Linked h) c := by
    have := hc.1
    rw [List.chain'_cons'] at this
    exact this.2
  refine ⟨chain'_frame hcc ?_ ?_, ?_⟩
  · intro u hu
    have h1 : u ≠ p := ne_last_of_mem_dropLast hd hp hu
    simp [del_heap, h1]
  · intro v hv
    have h1 : v ≠ n := ne_head_of_mem_tail hd hn hv
    simp [del_heap, h1]
  · intro u hu y hy
    rw [hp] at hu; rw [hn] at hy
    simp only [Option.mem_def, Option.some.injEq] at hu hy
    subst hu; subst hy
    simp [Linked, del_heap]

/-- Splicing a chain `b` between the last and the first node of a cycle `c`. -/
theorem cyc_splice {h : Heap} {c b : List Ptr} {n p f l : Ptr} (hd : (c ++ b).Nodup)
    (hn : c.head? = some n) (hp : c.getLast? = some p)
    (hf : b.head? = some f) (hl : b.getLast? = some l)
    (hc : Cyc h c) (hb : List.Chain' (Linked h) b) :
    Cyc (splice_heap f l p n h) (c ++ b) := by
  have hpm : p ∈ c := List.mem_of_mem_getLast? hp
  have hnm : n ∈ c := List.mem_of_mem_head? hn
  have hfm : f ∈ b := List.mem_of_mem_head? hf
  have hlm : l ∈ b := List.mem_of_mem_getLast? hl
  obtain ⟨hdc, hdb, hdis⟩ := List.nodup_append.1 hd
  have hcne : c ≠ [] := List.ne_nil_of_mem hpm
  have hbne : b ≠ [] := List.ne_nil_of_mem hfm
  have hpl : p ≠ l := fun e => hdis hpm (e ▸ hlm)
  have hfn : f ≠ n := fun e => hdis hnm (e ▸ hfm)
  refine ⟨List.chain'_append.2 ⟨chain'_frame hc.1 ?_ ?_, chain'_frame hb ?_ ?_, ?_⟩, ?_⟩
  · intro u hu
    have h1 : u ≠ p := ne_last_of_mem_dropLast hdc hp hu
    have h2 : u ≠ l := fun e => hdis (List.mem_of_mem_dropLast hu) (e ▸ hlm)
    simp [splice_heap, h1, h2]
  · intro v hv
    have h1 : v ≠ n := ne_head_of_mem_tail hdc hn hv
    have h2 : v ≠ f := fun e => hdis (List.mem_of_mem_tail hv) (e ▸ hfm)
    simp [splice_heap, h1, h2]
  · intro u hu
    have h1 : u ≠ l := ne_last_of_mem_dropLast hdb hl hu
    have h2 : u ≠ p := fun e => hdis hpm (e ▸ List.mem_of_mem_dropLast hu)
    simp [splice_heap, h1, h2]
  · intro v hv
    have h1 : v ≠ f := ne_head_of_mem_tail hdb hf hv
    have h2 : v ≠ n := fun e => hdis hnm (e ▸ List.mem_of_mem_tail hv)
    simp [splice_heap, h1, h2]
  · intro u hu y hy
    rw [hp] at hu; rw [hf] at hy
    simp only [Option.mem_def, Option.some.injEq] at hu hy
    subst hu; subst hy
    simp [Linked, splice_heap, hpl, hfn]
  · intro u hu y hy
    rw [List.getLast?_append_of_ne_nil _ hbne, hl] at hu
    rw [List.head?_append_of_ne_nil _ hcne, hn] at hy
    simp only [Option.mem_def, Option.some.injEq] at hu hy
    subst hu; subst hy
    simp [Linked, splice_heap]

/-! ## Well-formed lists: shape and iteration -/

theorem wf_head_ne {h : Heap} {head : Ptr} {es : List Ptr} (hwf : WellFormed h head es) :
    head ≠ NULL := hwf.1

theorem wf_mem_ne {h : Heap} {head : Ptr} {es : List Ptr} (hwf : WellFormed h head es)
    {a : Ptr} (ha : a ∈ head :: es) : a ≠ NULL := by
  rcases List.mem_cons.1 ha with rfl | ha
  · exact hwf.1
  · rintro rfl; exact hwf.2.1 ha

/-- In a well-formed list `head->next` is the first entry, or `head` on an empty list. -/
theorem wf_next_head {h : Heap} {head : Ptr} {es : List Ptr} (hwf : WellFormed h head es) :
    (es ++ [head]).head? = some (h head).next := by
  have hc := hwf.2.2.2
  rcases es with _ | ⟨e, es⟩
  · simp only [List.nil_append, Links] at hc
    simp [hc.1.1]
  · simp only [List.cons_append, Links] at hc
    simp [hc.1.1]

/-- In a well-formed list `head->prev` is the last entry, or `head` on an empty list. -/
theorem wf_prev_head {h : Heap} {head : Ptr} {es : List Ptr} (hwf : WellFormed h head es) :
    (head :: es).getLast? = some (h head).prev := by
  have hc := ((wellFormed_iff h head es).1 hwf).2.2.2
  have hl : (head :: es).getLast? = some ((head :: es).getLast (List.cons_ne_nil _ _)) :=
    List.getLast?_eq_getLast _ _
  have := hc.2 _ hl head (by simp)
  rw [hl, this.2]

theorem wf_next_head_ne {h : Heap} {head : Ptr} {es : List Ptr} (hwf : WellFormed h head es) :
    (h head).next ≠ NULL := by
  have hm : (h head).next ∈ es ++ [head] := List.mem_of_mem_head? (wf_next_head hwf)
  apply wf_mem_ne hwf
  simp only [List.mem_append, List.mem_singleton] at hm
  simp only [List.mem_cons]; tauto

theorem wf_prev_head_ne {h : Heap} {head : Ptr} {es : List Ptr} (hwf : WellFormed h head es) :
    (h head).prev ≠ NULL :=
  wf_mem_ne hwf (List.mem_of_mem_getLast? (wf_prev_head hwf))

theorem wf_frame {h h2 : Heap} {head : Ptr} {es : List Ptr} (hwf : WellFormed h head es)
    (hf : ∀ u ∈ head :: es, h2 u = h u) : WellFormed h2 head es := by
  rw [wellFormed_iff] at hwf ⊢
  exact ⟨hwf.1, hwf.2.1, hwf.2.2.1, cyc_frame hwf.2.2.2 hf⟩

theorem nodup_rotate_one {head : Ptr} {es : List Ptr} (hd : (head :: es).Nodup) :
    (es ++ [head]).Nodup := by
  have : (es ++ [head]).Perm (head :: es) := List.perm_append_comm
  exact this.nodup_iff.2 hd

/-- The collecting loop walks a chain of linked nodes up to `head`. -/
theorem for_each_from_collect {α : Type} (g : Ptr → α) (h : Heap) (head : Ptr) :
    ∀ (rest : List Ptr) (a : Ptr) (acc : List α) (fuel : Nat),
      Links h a (rest ++ [head]) → head ∉ rest → NULL ∉ rest →
      rest.length + 1 ≤ fuel →
      for_each_from (fun pos (acc : List α) h => .ok (acc ++ [g pos], h)) head fuel
        (h a).next acc h = .ok (acc ++ rest.map g, h) := by
  intro rest
  induction rest with
  | nil =>
    intro a acc fuel hc _ _ hfuel
    obtain ⟨k, rfl⟩ : ∃ k, fuel = k + 1 := ⟨fuel - 1, by simp at hfuel; omega⟩
    simp only [List.nil_append, Links] at hc
    simp [for_each_from, hc.1.1]
  | cons b r ih =>
    intro a acc fuel hc hh h0 hfuel
    obtain ⟨k, rfl⟩ : ∃ k, fuel = k + 1 := ⟨fuel - 1, by simp at hfuel; omega⟩
    simp only [List.cons_append, Links] at hc
    have hb : b ≠ head := fun e => hh (by simp [e])
    have hb0 : b ≠ NULL := fun e => h0 (by simp [e])
    have := ih b (acc ++ [g b]) k hc.2 (fun m => hh (List.mem_cons_of_mem _ m))
      (fun m => h0 (List.mem_cons_of_mem _ m)) (by simp at hfuel ⊢; omega)
    simp [for_each_from, hc.1.1, hb, load_next_ok hb0, this]

/-- Forward iteration over a well-formed list yields its entries, given `N + 1` loop tests. -/
theorem forward_of_wf {h : Heap} {head : Ptr} {es : List Ptr} (hwf : WellFormed h head es)
    {fuel : Nat} (hfuel : es.length + 1 ≤ fuel) : forward head fuel h = .ok es := by
  have hnd := hwf.2.2.1
  have := for_each_from_collect (fun p => p) h head es head [] fuel hwf.2.2.2
    (List.nodup_cons.1 hnd).1 hwf.2.1 hfuel
  simp only [List.map_id', List.nil_append] at this
  simp [forward, list_for_each_entry, load_next_ok hwf.1, this]

/-- `INIT_LIST_HEAD` makes a well-formed empty list. -/
theorem init_wf {head : Ptr} (hh : head ≠ NULL) (h : Heap) :
    INIT_LIST_HEAD head h = .ok (set_prev head head (set_next head head h)) ∧
      WellFormed (set_prev head head (set_next head head h)) head [] := by
  refine ⟨by simp [INIT_LIST_HEAD, store_next_ok hh, store_prev_ok hh], hh, by simp, by simp, ?_⟩
  simp [Links, Linked]

/-! ## Insertion -/

theorem wf_add {h : Heap} {head x : Ptr} {es : List Ptr} (hwf : WellFormed h head es)
    (hx0 : x ≠ NULL) (hx : x ∉ head :: es) :
    list_add x head h = .ok (add_heap x head (h head).next h) ∧
      WellFormed (add_heap x head (h head).next h) head (x :: es) := by
  have hn0 := wf_next_head_ne hwf
  have hn := wf_next_head hwf
  obtain ⟨hh0, hes0, hnd, hcyc⟩ := (wellFormed_iff h head es).1 hwf
  refine ⟨by simp [list_add, load_next_ok hh0, list_add_raw_ok hx0 hh0 hn0], ?_⟩
  rw [wellFormed_iff]
  refine ⟨hh0, ?_, ?_, ?_⟩
  · simp only [List.mem_cons, not_or]; exact ⟨fun e => hx0 e.symm, hes0⟩
  · rw [List.nodup_cons] at hnd ⊢
    simp only [List.mem_cons, not_or] at hx ⊢
    exact ⟨⟨fun e => hx.1 e.symm, hnd.1⟩, List.nodup_cons.2 ⟨hx.2, hnd.2⟩⟩
  · have hc2 : Cyc h (es ++ [head]) := (cyc_rotate h [head] es).1 hcyc
    have hx2 : x ∉ es ++ [head] := by
      simp only [List.mem_cons, not_or] at hx
      simp only [List.mem_append, List.mem_singleton, not_or]; exact ⟨hx.2, hx.1⟩
    have := cyc_insert (nodup_rotate_one hnd) hx2 hn (List.getLast?_concat es) hc2
    rw [List.append_assoc] at this
    exact (cyc_rotate _ es [head, x]).1 this

theorem wf_add_tail {h : Heap} {head x : Ptr} {es : List Ptr} (hwf : WellFormed h head es)
    (hx0 : x ≠ NULL) (hx : x ∉ head :: es) :
    list_add_tail x head h = .ok (add_heap x (h head).prev head h) ∧
      WellFormed (add_heap x (h head).prev head h) head (es ++ [x]) := by
  have hp0 := wf_prev_head_ne hwf
  have hp := wf_prev_head hwf
  obtain ⟨hh0, hes0, hnd, hcyc⟩ := (wellFormed_iff h head es).1 hwf
  refine ⟨by simp [list_add_tail, load_prev_ok hh0, list_add_raw_ok hx0 hp0 hh0], ?_⟩
  rw [wellFormed_iff]
  refine ⟨hh0, ?_, ?_, ?_⟩
  · simp only [List.mem_append, List.mem_singleton, not_or]; exact ⟨hes0, fun e => hx0 e.symm⟩
  · have : ((head :: es) ++ [x]).Nodup := by
      rw [List.nodup_append]
      refine ⟨hnd, List.nodup_singleton x, ?_⟩
      intro a ha hax
      rw [List.mem_singleton] at hax
      exact hx (hax ▸ ha)
    simp at this ⊢; exact this
  · exact cyc_insert hnd hx (List.head?_cons) hp hcyc

theorem fold_add (head : Ptr) :
    ∀ (vs : List Ptr) (h : Heap) (es : List Ptr), WellFormed h head es → NULL ∉ vs →
      vs.Nodup → (∀ v ∈ vs, v ∉ head :: es) →
      ∃ h2, vs.foldlM (fun h v => list_add v head h) h = .ok h2 ∧
        WellFormed h2 head (vs.reverse ++ es) := by
  intro vs
  induction vs with
  | nil => intro h es hwf _ _ _; exact ⟨h, rfl, by simpa using hwf⟩
  | cons v vs ih =>
    intro h es hwf h0 hnd hdis
    have hv0 : v ≠ NULL := fun e => h0 (by simp [e])
    obtain ⟨hadd, hwf2⟩ := wf_add hwf hv0 (hdis v (by simp))
    obtain ⟨h2, hf, hw⟩ := ih _ (v :: es) hwf2 (fun m => h0 (List.mem_cons_of_mem _ m))
      (List.nodup_cons.1 hnd).2 (by
        intro w hw hm
        have hwv : w ≠ v := fun e => (List.nodup_cons.1 hnd).1 (e ▸ hw)
        have := hdis w (List.mem_cons_of_mem _ hw)
        simp only [List.mem_cons, not_or] at this hm
        tauto)
    refine ⟨h2, by simp [List.foldlM_cons, hadd, hf], ?_⟩
    simpa using hw

theorem fold_add_tail (head : Ptr) :
    ∀ (vs : List Ptr) (h : Heap) (es : List Ptr), WellFormed h head es → NULL ∉ vs →
      vs.Nodup → (∀ v ∈ vs, v ∉ head :: es) →
      ∃ h2, vs.foldlM (fun h v => list_add_tail v head h) h = .ok h2 ∧
        WellFormed h2 head (es ++ vs) := by
  intro vs
  induction vs with
  | nil => intro h es hwf _ _ _; exact ⟨h, rfl, by simpa using hwf⟩
  | cons v vs ih =>
    intro h es hwf h0 hnd hdis
    have hv0 : v ≠ NULL := fun e => h0 (by simp [e])
    obtain ⟨hadd, hwf2⟩ := wf_add_tail hwf hv0 (hdis v (by simp))
    obtain ⟨h2, hf, hw⟩ := ih _ (es ++ [v]) hwf2 (fun m => h0 (List.mem_cons_of_mem _ m))
      (List.nodup_cons.1 hnd).2 (by
        intro w hw hm
        have hwv : w ≠ v := fun e => (List.nodup_cons.1 hnd).1 (e ▸ hw)
        have := hdis w (List.mem_cons_of_mem _ hw)
        simp only [List.mem_cons, List.mem_append, List.mem_singleton, not_or] at this hm
        tauto)
    refine ⟨h2, by simp [List.foldlM_cons, hadd, hf], ?_⟩
    simpa using hw

/-- C1 (front insertion). `list_add(x, head)` on a well-formed list with entries `es` and a
fresh non-null node `x` succeeds and leaves a well-formed list whose forward iteration is
`x :: es`. Hence, after `INIT_LIST_HEAD(head)`, inserting distinct nodes `vs` one by one with
`list_add` leaves a list whose forward iteration is `vs` reversed. In the demo, after
`insert(0) .. insert(9)`, `print` outputs `9, 8, .., 0`. -/
theorem list_add_front :
    (∀ (h : Heap) (head x : Ptr) (es : List Ptr),
        WellFormed h head es → x ≠ NULL → x ∉ head :: es →
        ∃ h2, list_add x head h = .ok h2 ∧ WellFormed h2 head (x :: es) ∧
          ∀ fuel, es.length + 2 ≤ fuel → forward head fuel h2 = .ok (x :: es)) ∧
    (∀ (h : Heap) (head : Ptr) (vs : List Ptr),
        head ≠ NULL → NULL ∉ vs → (head :: vs).Nodup →
        ∃ h2, (INIT_LIST_HEAD head h >>= fun h0 =>
              vs.foldlM (fun h v => list_add v head h) h0) = .ok h2 ∧
          WellFormed h2 head vs.reverse ∧
          ∀ fuel, vs.length + 1 ≤ fuel → forward head fuel h2 = .ok vs.reverse) ∧
    (∀ fuel, 11 ≤ fuel →
        (main_inserts Demo.init >>= print fuel) = .ok [9, 8, 7, 6, 5, 4, 3, 2, 1, 0]) := by
  refine ⟨?_, ?_, ?_⟩
  · intro h head x es hwf hx0 hx
    obtain ⟨hadd, hwf2⟩ := wf_add hwf hx0 hx
    exact ⟨_, hadd, hwf2, fun fuel hf => forward_of_wf hwf2 (by simpa using hf)⟩
  · intro h head vs hh h0 hnd
    obtain ⟨hinit, hwf0⟩ := init_wf hh h
    obtain ⟨h2, hf, hw⟩ := fold_add head vs _ [] hwf0 h0 (List.nodup_cons.1 hnd).2 (by
      intro v hv hm
      simp only [List.mem_singleton] at hm
      exact (List.nodup_cons.1 hnd).1 (hm ▸ hv))
    rw [List.append_nil] at hw
    exact ⟨h2, by simp [hinit, hf], hw, fun fuel hfu => forward_of_wf hw (by simpa using hfu)⟩
  · intro fuel hf
    obtain ⟨k, rfl⟩ : ∃ k, fuel = k + 11 := ⟨fuel - 11, by omega⟩
    rfl

/-- Witness of C1 on the sample heap: node `4` is put in front of `2, 3`. -/
theorem list_add_front_witness :
    WellFormed sample_heap 1 [2, 3] ∧
      ∃ h2, list_add 4 1 sample_heap = .ok h2 ∧ WellFormed h2 1 [4, 2, 3] ∧
        ∀ fuel, [2, 3].length + 2 ≤ fuel → forward 1 fuel h2 = .ok [4, 2, 3] :=
  ⟨by decide, list_add_front.1 sample_heap 1 4 [2, 3] (by decide) (by decide) (by decide)⟩

/-- C2 (tail insertion). `list_add_tail(x, head)` on a well-formed list with entries `es` and
a fresh non-null node `x` succeeds and leaves a well-formed list whose forward iteration is
`es ++ [x]`. Hence, after `INIT_LIST_HEAD(head)`, inserting distinct nodes `vs` one by one
with `list_add_tail` leaves a list whose forward iteration is `vs`. -/
theorem list_add_tail_back :
    (∀ (h : Heap) (head x : Ptr) (es : List Ptr),
        WellFormed h head es → x ≠ NULL → x ∉ head :: es →
        ∃ h2, list_add_tail x head h = .ok h2 ∧ WellFormed h2 head (es ++ [x]) ∧
          ∀ fuel, es.length + 2 ≤ fuel → forward head fuel h2 = .ok (es ++ [x])) ∧
    (∀ (h : Heap) (head : Ptr) (vs : List Ptr),
        head ≠ NULL → NULL ∉ vs → (head :: vs).Nodup →
        ∃ h2, (INIT_LIST_HEAD head h >>= fun h0 =>
              vs.foldlM (fun h v => list_add_tail v head h) h0) = .ok h2 ∧
          WellFormed h2 head vs ∧
          ∀ fuel, vs.length + 1 ≤ fuel → forward head fuel h2 = .ok vs) := by
  refine ⟨?_, ?_⟩
  · intro h head x es hwf hx0 hx
    obtain ⟨hadd, hwf2⟩ := wf_add_tail hwf hx0 hx
    exact ⟨_, hadd, hwf2, fun fuel hf => forward_of_wf hwf2 (by simpa using hf)⟩
  · intro h head vs hh h0 hnd
    obtain ⟨hinit, hwf0⟩ := init_wf hh h
    obtain ⟨h2, hf, hw⟩ := fold_add_tail head vs _ [] hwf0 h0 (List.nodup_cons.1 hnd).2 (by
      intro v hv hm
      simp only [List.mem_singleton] at hm
      exact (List.nodup_cons.1 hnd).1 (hm ▸ hv))
    rw [List.nil_append] at hw
    exact ⟨h2, by simp [hinit, hf], hw, fun fuel hfu => forward_of_wf hw hfu⟩

/-- Witness of C2 on the sample heap: node `4` is put behind `2, 3`. -/
theorem list_add_tail_back_witness :
    WellFormed sample_heap 1 [2, 3] ∧
      ∃ h2, list_add_tail 4 1 sample_heap = .ok h2 ∧ WellFormed h2 1 [2, 3, 4] ∧
        ∀ fuel, [2, 3].length + 2 ≤ fuel → forward 1 fuel h2 = .ok [2, 3, 4] :=
  ⟨by decide, list_add_tail_back.1 sample_heap 1 4 [2, 3] (by decide) (by decide) (by decide)⟩

/-! ## Removal -/

theorem head?_append_cons (l2 l1 : List Ptr) (head : Ptr) :
    (l2 ++ head :: l1).head? = (l2 ++ [head]).head? := by
  cases l2 <;> simp

/-- The neighbours of an entry of a well-formed list. -/
theorem wf_neighbours {h : Heap} {head e : Ptr} {l1 l2 : List Ptr}
    (hwf : WellFormed h head (l1 ++ e :: l2)) :
    (l2 ++ [head]).head? = some (h e).next ∧ (head :: l1).getLast? = some (h e).prev := by
  obtain ⟨_, _, _, hcyc⟩ := (wellFormed_iff _ _ _).1 hwf
  have hc : Cyc h (e :: (l2 ++ head :: l1)) := (cyc_rotate h (head :: l1) (e :: l2)).1 hcyc
  obtain ⟨n, hn⟩ : ∃ n, (l2 ++ head :: l1).head? = some n := by
    cases l2 <;> simp
  have hp : (l2 ++ head :: l1).getLast? = some ((head :: l1).getLast (List.cons_ne_nil _ _)) := by
    rw [List.getLast?_append_of_ne_nil _ (List.cons_ne_nil _ _)]
    exact List.getLast?_eq_getLast _ _
  obtain ⟨e1, e2, _, _⟩ := cyc_cons_links hn hp hc
  rw [← head?_append_cons l2 l1 head, hn, e1, List.getLast?_eq_getLast _ (List.cons_ne_nil _ _), e2]
  exact ⟨rfl, rfl⟩

theorem nodup_remove_middle {head e : Ptr} {l1 l2 : List Ptr}
    (hd : (head :: (l1 ++ e :: l2)).Nodup) :
    (head :: (l1 ++ l2)).Nodup ∧ e ∉ head :: (l1 ++ l2) := by
  have hp : (head :: (l1 ++ e :: l2)).Perm (e :: head :: (l1 ++ l2)) := by
    have : (l1 ++ e :: l2).Perm (e :: (l1 ++ l2)) := List.perm_middle
    exact (List.Perm.cons head this).trans (List.Perm.swap e head _)
  have := hp.nodup_iff.1 hd
  exact ⟨(List.nodup_cons.1 this).2, (List.nodup_cons.1 this).1⟩

/-- Unlinking an entry: `__list_del(e->prev, e->next)` on a well-formed list. -/
theorem wf_unlink {h : Heap} {head e : Ptr} {l1 l2 : List Ptr}
    (hwf : WellFormed h head (l1 ++ e :: l2)) :
    e ≠ NULL ∧ (h e).prev ≠ NULL ∧ (h e).next ≠ NULL ∧
      (h e).prev ≠ e ∧ (h e).next ≠ e ∧ e ∉ head :: (l1 ++ l2) ∧
      WellFormed (del_heap (h e).prev (h e).next h) head (l1 ++ l2) := by
  obtain ⟨hn, hp⟩ := wf_neighbours hwf
  obtain ⟨hh0, hes0, hnd, hcyc⟩ := (wellFormed_iff _ _ _).1 hwf
  obtain ⟨hnd2, he⟩ := nodup_remove_middle hnd
  have hnm : (h e).next ∈ head :: (l1 ++ l2) := by
    have := List.mem_of_mem_head? hn
    simp only [List.mem_append, List.mem_singleton, List.mem_cons] at this ⊢
    tauto
  have hpm : (h e).prev ∈ head :: (l1 ++ l2) := by
    have := List.mem_of_mem_getLast? hp
    simp only [List.mem_append, List.mem_cons] at this ⊢
    tauto
  have hes2 : NULL ∉ l1 ++ l2 := by
    simp only [List.mem_append, List.mem_cons, not_or] at hes0 ⊢
    tauto
  have hall : ∀ a ∈ head :: (l1 ++ l2), a ≠ NULL := by
    intro a ha
    rcases List.mem_cons.1 ha with rfl | ha
    · exact hh0
    · rintro rfl; exact hes2 ha
  refine ⟨?_, hall _ hpm, hall _ hnm, fun e1 => he (e1 ▸ hpm), fun e1 => he (e1 ▸ hnm), he, ?_⟩
  · rintro rfl; exact hes0 (by simp)
  · rw [wellFormed_iff]
    refine ⟨hh0, hes2, hnd2, ?_⟩
    have hc : Cyc h (e :: (l2 ++ head :: l1)) := (cyc_rotate h (head :: l1) (e :: l2)).1 hcyc
    have hn2 : (l2 ++ head :: l1).head? = some (h e).next := by
      rw [head?_append_cons]; exact hn
    have hp2 : (l2 ++ head :: l1).getLast? = some (h e).prev := by
      rw [List.getLast?_append_of_ne_nil _ (List.cons_ne_nil _ _)]; exact hp
    have hnd3 : (l2 ++ head :: l1).Nodup := by
      have : (l2 ++ head :: l1).Perm (head :: (l1 ++ l2)) :=
        (List.perm_append_comm : (l2 ++ head :: l1).Perm ((head :: l1) ++ l2))
      exact this.nodup_iff.2 hnd2
    exact (cyc_rotate _ l2 (head :: l1)).1 (cyc_delete hnd3 hn2 hp2 hc)

/-- Heap after `list_del(e)` on a linked entry. -/
theorem wf_del {h : Heap} {head e : Ptr} {l1 l2 : List Ptr}
    (hwf : WellFormed h head (l1 ++ e :: l2)) :
    list_del e h = .ok (list_del_heap e h) ∧ WellFormed (list_del_heap e h) head (l1 ++ l2) := by
  obtain ⟨he0, hp0, hn0, _, _, he, hwf2⟩ := wf_unlink hwf
  refine ⟨by simp [list_del, list_del_heap, load_prev_ok he0, load_next_ok he0,
    list_del_raw_ok hp0 hn0, store_next_ok he0, store_prev_ok he0], wf_frame hwf2 ?_⟩
  intro u hu
  have hue : u ≠ e := fun e1 => he (e1 ▸ hu)
  simp [list_del_heap, set_prev, set_next, hue]

/-- C3 (removal, variant A). On a well-formed list with entries `l1 ++ e :: l2`,
`list_del(e)` succeeds; afterwards the old predecessor's `next` is the old successor and the
old successor's `prev` is the old predecessor, `e->next` and `e->prev` are `NULL`, and the
list anchored at `head` is well-formed with forward iteration `l1 ++ l2`, one entry
shorter. -/
theorem list_del_removes (h : Heap) (head e : Ptr) (l1 l2 : List Ptr)
    (hwf : WellFormed h head (l1 ++ e :: l2)) :
    ∃ h2, list_del e h = .ok h2 ∧
      (h2 (h e).prev).next = (h e).next ∧ (h2 (h e).next).prev = (h e).prev ∧
      (h2 e).next = NULL ∧ (h2 e).prev = NULL ∧
      WellFormed h2 head (l1 ++ l2) ∧
      (l1 ++ l2).length + 1 = (l1 ++ e :: l2).length ∧
      ∀ fuel, (l1 ++ e :: l2).length ≤ fuel → forward head fuel h2 = .ok (l1 ++ l2) := by
  obtain ⟨_, _, _, hpe, hne, _, _⟩ := wf_unlink hwf
  obtain ⟨hdel, hwf2⟩ := wf_del hwf
  refine ⟨_, hdel, ?_, ?_, by simp [list_del_heap], by simp [list_del_heap], hwf2,
    by simp; omega, ?_⟩
  · simp [list_del_heap, del_heap, hpe]
  · simp [list_del_heap, del_heap, hne]
  · intro fuel hf
    exact forward_of_wf hwf2 (by simp at hf ⊢; omega)

/-- Witness of C3 on the sample heap: entry `2` is removed from `2, 3`. -/
theorem list_del_removes_witness :
    WellFormed sample_heap 1 ([] ++ 2 :: [3]) ∧
      ∃ h2, list_del 2 sample_heap = .ok h2 ∧
        (h2 (sample_heap 2).prev).next = (sample_heap 2).next ∧
        (h2 (sample_heap 2).next).prev = (sample_heap 2).prev ∧
        (h2 2).next = NULL ∧ (h2 2).prev = NULL ∧
        WellFormed h2 1 ([] ++ [3]) ∧
        ([] ++ [3] : List Ptr).length + 1 = ([] ++ 2 :: [3] : List Ptr).length ∧
        ∀ fuel, ([] ++ 2 :: [3] : List Ptr).length ≤ fuel →
          forward 1 fuel h2 = .ok ([] ++ [3]) :=
  ⟨by decide, list_del_removes sample_heap 1 2 [] [3] (by decide)⟩

/-! ## Mutation-safe iteration -/

theorem safe_from_step {σ : Type} (body : Ptr → σ → Heap → Except Err (σ × Heap))
    (head : Ptr) (k : Nat) (pos n : Ptr) (acc : σ) (h : Heap) (tr : List Event)
    (hne : pos ≠ head) :
    for_each_safe_from body head (k + 1) pos n acc h tr =
      (body pos acc h >>= fun r => load_next n r.2 >>= fun n2 =>
        for_each_safe_from body head k n n2 r.1 r.2 (tr ++ [Event.body pos, Event.read n])) := by
  simp [for_each_safe_from, hne]

theorem safe_from_stop {σ : Type} (body : Ptr → σ → Heap → Except Err (σ × Heap))
    (head : Ptr) (k : Nat) (n : Ptr) (acc : σ) (h : Heap) (tr : List Event) :
    for_each_safe_from body head (k + 1) head n acc h tr = .ok (acc, h, tr) := by
  simp [for_each_safe_from]

theorem wf_entry_ne_head {h : Heap} {head e : Ptr} {l1 l2 : List Ptr}
    (hwf : WellFormed h head (l1 ++ e :: l2)) : e ≠ head := by
  rintro rfl
  exact (List.nodup_cons.1 hwf.2.2.1).1 (by simp)

theorem del_body_true {p : Ptr → Bool} {pos : Ptr} (hp : p pos = true) (h : Heap) :
    del_body p pos () h = (list_del pos h >>= fun h2 => .ok ((), h2)) := by
  simp [del_body, hp]

theorem del_body_false {p : Ptr → Bool} {pos : Ptr} (hp : p pos = false) (h : Heap) :
    del_body p pos () h = .ok ((), h) := by
  simp [del_body, hp]

/-- The safe loop with the removing body, from an entry `pos` of a well-formed list on. -/
theorem safe_from_del (p : Ptr → Bool) (head : Ptr) :
    ∀ (rest K : List Ptr) (pos : Ptr) (h : Heap) (tr : List Event) (fuel : Nat),
      WellFormed h head (K ++ pos :: rest) → rest.length + 2 ≤ fuel →
      ∃ h2, for_each_safe_from (del_body p) head fuel pos (h pos).next () h tr =
          .ok ((), h2, tr ++ Event.body pos ::
            (rest.flatMap (fun e => [Event.read e, Event.body e]) ++ [Event.read head])) ∧
        WellFormed h2 head (K ++ (pos :: rest).filter (fun e => !p e)) := by
  intro rest
  induction rest with
  | nil =>
    intro K pos h tr fuel hwf hf
    obtain ⟨k, rfl⟩ : ∃ k, fuel = k + 1 + 1 := ⟨fuel - 2, by simp at hf; omega⟩
    have hn : (h pos).next = head := by
      have := (wf_neighbours hwf).1
      simpa using this.symm
    have hh0 : head ≠ NULL := hwf.1
    rw [safe_from_step _ _ _ _ _ _ _ _ (wf_entry_ne_head hwf), hn]
    cases hp : p pos
    · refine ⟨h, ?_, by simpa [hp] using hwf⟩
      rw [del_body_false hp]
      simp [load_next_ok hh0, safe_from_stop]
    · obtain ⟨hdel, hwf2⟩ := wf_del hwf
      refine ⟨list_del_heap pos h, ?_, by simpa [hp] using hwf2⟩
      rw [del_body_true hp, hdel]
      simp [load_next_ok hh0, safe_from_stop]
  | cons e r ih =>
    intro K pos h tr fuel hwf hf
    obtain ⟨k, rfl⟩ : ∃ k, fuel = k + 1 := ⟨fuel - 1, by simp at hf; omega⟩
    have hk : r.length + 2 ≤ k := by simp at hf; omega
    have hn : (h pos).next = e := by
      have := (wf_neighbours hwf).1
      simpa using this.symm
    rw [safe_from_step _ _ _ _ _ _ _ _ (wf_entry_ne_head hwf), hn]
    cases hp : p pos
    · have he0 : e ≠ NULL := wf_mem_ne hwf (by simp)
      have hwf2 : WellFormed h head ((K ++ [pos]) ++ e :: r) := by simpa using hwf
      obtain ⟨h2, hrun, hw⟩ :=
        ih (K ++ [pos]) e h (tr ++ [Event.body pos, Event.read e]) k hwf2 hk
      refine ⟨h2, ?_, ?_⟩
      · rw [del_body_false hp]
        simp only [bind_ok, load_next_ok he0]
        rw [hrun]; simp
      · rw [List.filter_cons_of_pos (by simp [hp])]; simpa using hw
    · obtain ⟨hdel, hwf2⟩ := wf_del hwf
      have he0 : e ≠ NULL := wf_mem_ne hwf2 (by simp)
      obtain ⟨h2, hrun, hw⟩ := ih K e _ (tr ++ [Event.body pos, Event.read e]) k hwf2 hk
      refine ⟨h2, ?_, ?_⟩
      · rw [del_body_true hp, hdel]
        simp only [bind_ok, load_next_ok he0]
        rw [hrun]; simp
      · rw [List.filter_cons_of_neg (by simp [hp])]; exact hw

/-- A whole `list_for_each_entry_safe` pass with the removing body. -/
theorem safe_del_run (p : Ptr → Bool) {h : Heap} {head : Ptr} {es : List Ptr}
    (hwf : WellFormed h head es) {fuel : Nat} (hf : es.length + 1 ≤ fuel) :
    ∃ h2, list_for_each_entry_safe_traced (del_body p) head fuel () h =
        .ok ((), h2, Event.read head ::
          (es.flatMap (fun e => [Event.read e, Event.body e]) ++ [Event.read head])) ∧
      WellFormed h2 head (es.filter (fun e => !p e)) := by
  have hh0 : head ≠ NULL := hwf.1
  rcases es with _ | ⟨e, r⟩
  · obtain ⟨k, rfl⟩ : ∃ k, fuel = k + 1 := ⟨fuel - 1, by simp at hf; omega⟩
    have hn : (h head).next = head := by
      have := wf_next_head hwf
      simpa using this.symm
    refine ⟨h, ?_, by simpa using hwf⟩
    simp [list_for_each_entry_safe_traced, load_next_ok hh0, hn, safe_from_stop]
  · have hn : (h head).next = e := by
      have := wf_next_head hwf
      simpa using this.symm
    have he0 : e ≠ NULL := wf_mem_ne hwf (by simp)
    obtain ⟨h2, hrun, hw⟩ := safe_from_del p head r [] e h [Event.read head, Event.read e] fuel
      (by simpa using hwf) (by simp at hf ⊢; omega)
    refine ⟨h2, ?_, by simpa using hw⟩
    simp only [list_for_each_entry_safe_traced, load_next_ok hh0, hn, bind_ok, load_next_ok he0]
    rw [hrun]; simp

/-- In the event log of a safe pass no node is read after it was handed to the body. -/
theorem trace_no_read_after_body (head : Ptr) :
    ∀ (es : List Ptr), es.Nodup → head ∉ es →
      ∀ (tr1 tr2 : List Event) (c : Ptr),
        es.flatMap (fun e => [Event.read e, Event.body e]) ++ [Event.read head] =
          tr1 ++ Event.body c :: tr2 → Event.read c ∉ tr2 := by
  intro es
  induction es with
  | nil =>
    intro _ _ tr1 tr2 c heq
    rcases tr1 with _ | ⟨a, tr1⟩
    · simp at heq
    · rcases tr1 with _ | ⟨b, tr1⟩ <;> simp at heq
  | cons e r ih =>
    intro hnd hh tr1 tr2 c heq
    have hmem : ∀ c, Event.read c ∈
        r.flatMap (fun e => [Event.read e, Event.body e]) ++ [Event.read head] →
        c ∈ r ∨ c = head := by
      intro c hc
      simp only [List.mem_append, List.mem_flatMap, List.mem_cons, List.mem_singleton,
        Event.read.injEq, List.not_mem_nil, or_false] at hc
      rcases hc with ⟨a, ha, hca | hca⟩ | hc
      · left; rw [hca]; exact ha
      · exact absurd hca (by simp)
      · right; exact hc
    simp only [List.flatMap_cons, List.cons_append, List.nil_append] at heq
    rcases tr1 with _ | ⟨a, tr1⟩
    · simp at heq
    · rcases tr1 with _ | ⟨b, tr1⟩
      · simp only [List.cons_append, List.nil_append, List.cons.injEq, Event.body.injEq] at heq
        obtain ⟨_, hce, htr⟩ := heq
        subst hce; subst htr
        intro hc
        rcases hmem _ hc with hc | hc
        · exact (List.nodup_cons.1 hnd).1 hc
        · exact hh (by simp [hc])
      · simp only [List.cons_append, List.cons.injEq] at heq
        exact ih (List.nodup_cons.1 hnd).2 (fun m => hh (List.mem_cons_of_mem _ m))
          tr1 tr2 c heq.2.2

theorem length_filter_not (p : Ptr → Bool) (es : List Ptr) :
    (es.filter (fun e => !p e)).length = es.length - es.countP p := by
  induction es with
  | nil => rfl
  | cons e r ih =>
    have hle : r.countP p ≤ r.length := List.countP_le_length p
    cases hp : p e
    · rw [List.filter_cons_of_pos (by simp [hp]), List.countP_cons_of_neg p r (by simp [hp])]
      simp only [List.length_cons, ih]; omega
    · rw [List.filter_cons_of_neg (by simp [hp]), List.countP_cons_of_pos p r hp]
      simp only [List.length_cons, ih]; omega

/-- C4 (mutation-safe iteration with removal). On a well-formed list with entries `es`, one
`list_for_each_entry_safe` pass whose body calls `list_del` on the yielded entry exactly when
`p` holds completes within `N + 1` loop tests. Its event log is: read `head`, then for each
entry in order a read of the entry followed by the body on it, then read `head`; so no node
is read by the macro after it was removed. The list left behind is well-formed, its forward
iteration is the entries not satisfying `p` in their original order, and its length is the
old length minus the number removed. In the demo, `main` prints `9 .. 0` and then
`8, 7, 5, 4, 2, 1, 0`. -/
theorem safe_pass_removes :
    (∀ (h : Heap) (head : Ptr) (es : List Ptr) (p : Ptr → Bool) (fuel : Nat),
        WellFormed h head es → es.length + 1 ≤ fuel →
        ∃ h2 tr,
          list_for_each_entry_safe_traced (del_body p) head fuel () h = .ok ((), h2, tr) ∧
          list_for_each_entry_safe (del_body p) head fuel () h = .ok ((), h2) ∧
          tr = Event.read head ::
            (es.flatMap (fun e => [Event.read e, Event.body e]) ++ [Event.read head]) ∧
          (∀ (tr1 tr2 : List Event) (c : Ptr),
            tr = tr1 ++ Event.body c :: tr2 → p c = true → Event.read c ∉ tr2) ∧
          WellFormed h2 head (es.filter (fun e => !p e)) ∧
          (es.filter (fun e => !p e)).length = es.length - es.countP p ∧
          ∀ fuel2, (es.filter (fun e => !p e)).length + 1 ≤ fuel2 →
            forward head fuel2 h2 = .ok (es.filter (fun e => !p e))) ∧
    (∀ fuel, 11 ≤ fuel →
        main fuel = .ok ([9, 8, 7, 6, 5, 4, 3, 2, 1, 0], [8, 7, 5, 4, 2, 1, 0])) := by
  refine ⟨?_, ?_⟩
  · intro h head es p fuel hwf hf
    obtain ⟨h2, hrun, hw⟩ := safe_del_run p hwf hf
    refine ⟨h2, _, hrun, by simp [list_for_each_entry_safe, hrun], rfl, ?_, hw,
      length_filter_not p es, fun fuel2 hf2 => forward_of_wf hw hf2⟩
    intro tr1 tr2 c heq _
    have hnd := hwf.2.2.1
    rcases tr1 with _ | ⟨a, tr1⟩
    · simp at heq
    · simp only [List.cons_append, List.cons.injEq] at heq
      exact trace_no_read_after_body head es (List.nodup_cons.1 hnd).2 (List.nodup_cons.1 hnd).1
        tr1 tr2 c heq.2
  · intro fuel hf
    obtain ⟨k, rfl⟩ : ∃ k, fuel = k + 11 := ⟨fuel - 11, by omega⟩
    rfl

/-- Witness of C4 on the sample heap: the pass removing the entries equal to `2` from
`2, 3`. -/
theorem safe_pass_removes_witness :
    WellFormed sample_heap 1 [2, 3] ∧
      ∃ h2 tr,
        list_for_each_entry_safe_traced (del_body (fun e => decide (e = 2))) 1 3 () sample_heap =
          .ok ((), h2, tr) ∧
        list_for_each_entry_safe (del_body (fun e => decide (e = 2))) 1 3 () sample_heap =
          .ok ((), h2) ∧
        tr = Event.read 1 ::
          ([2, 3].flatMap (fun e => [Event.read e, Event.body e]) ++ [Event.read 1]) ∧
        (∀ (tr1 tr2 : List Event) (c : Ptr),
          tr = tr1 ++ Event.body c :: tr2 → (fun e => decide (e = 2)) c = true →
            Event.read c ∉ tr2) ∧
        WellFormed h2 1 ([2, 3].filter (fun e => !(fun e => decide (e = 2)) e)) ∧
        ([2, 3].filter (fun e => !(fun e => decide (e = 2)) e)).length =
          [2, 3].length - [2, 3].countP (fun e => decide (e = 2)) ∧
        ∀ fuel2, ([2, 3].filter (fun e => !(fun e => decide (e = 2)) e)).length + 1 ≤ fuel2 →
          forward 1 fuel2 h2 = .ok ([2, 3].filter (fun e => !(fun e => decide (e = 2)) e)) :=
  ⟨by decide,
    safe_pass_removes.1 sample_heap 1 [2, 3] (fun e => decide (e = 2)) 3 (by decide) (by decide)⟩

/-! ## Splice -/

theorem list_splice_raw_ok {list p n : Ptr} (h : Heap) (hl : list ≠ NULL)
    (hf : (h list).next ≠ NULL) (hla : (h list).prev ≠ NULL) (hp : p ≠ NULL) (hn : n ≠ NULL) :
    __list_splice list p n h = .ok (splice_heap (h list).next (h list).prev p n h) := by
  simp [__list_splice, splice_heap, load_next_ok hl, load_prev_ok hl, store_prev_ok hf,
    store_next_ok hp, store_next_ok hla, store_prev_ok hn]

theorem list_empty_ok {head : Ptr} (hh : head ≠ NULL) (h : Heap) :
    list_empty head h = .ok (decide ((h head).next = head)) := by
  simp [list_empty, load_next_ok hh]

/-- The first and last entry of a non-empty well-formed list. -/
theorem wf_first_last {h : Heap} {head : Ptr} {es : List Ptr} (hwf : WellFormed h head es)
    (hne : es ≠ []) :
    es.head? = some (h head).next ∧ es.getLast? = some (h head).prev ∧
      (h head).next ≠ head ∧ (h head).prev ≠ head := by
  have h1 := wf_next_head hwf
  have h2 := wf_prev_head hwf
  rw [List.head?_append_of_ne_nil _ hne] at h1
  have h3 : es.getLast? = some (h head).prev := by
    rw [← h2]
    exact (List.getLast?_append_of_ne_nil [head] hne).symm
  have hnd := (List.nodup_cons.1 hwf.2.2.1).1
  exact ⟨h1, h3, fun e => hnd (e ▸ List.mem_of_mem_head? h1),
    fun e => hnd (e ▸ List.mem_of_mem_getLast? h3)⟩

theorem wf_chain_entries {h : Heap} {head : Ptr} {es : List Ptr} (hwf : WellFormed h head es) :
    List.Chain' (Linked h) es := by
  have hc := ((wellFormed_iff _ _ _).1 hwf).2.2.2.1
  rw [List.chain'_cons'] at hc
  exact hc.2

/-- Heaps after the two plain splices of a non-empty source into a target. -/
theorem wf_splice {h : Heap} {headA headB : Ptr} {as bs : List Ptr}
    (hA : WellFormed h headA as) (hB : WellFormed h headB bs) (hne : bs ≠ [])
    (hdis : ∀ a ∈ headA :: as, a ∉ headB :: bs) :
    list_empty headB h = .ok false ∧
      __list_splice headB headA (h headA).next h =
        .ok (splice_heap (h headB).next (h headB).prev headA (h headA).next h) ∧
      WellFormed (splice_heap (h headB).next (h headB).prev headA (h headA).next h)
        headA (bs ++ as) ∧
      __list_splice headB (h headA).prev headA h =
        .ok (splice_heap (h headB).next (h headB).prev (h headA).prev headA h) ∧
      WellFormed (splice_heap (h headB).next (h headB).prev (h headA).prev headA h)
        headA (as ++ bs) := by
  obtain ⟨hf, hl, hfne, _⟩ := wf_first_last hB hne
  have hA0 := hA.1
  have hB0 := hB.1
  have hfm : (h headB).next ∈ bs := List.mem_of_mem_head? hf
  have hlm : (h headB).prev ∈ bs := List.mem_of_mem_getLast? hl
  have hf0 : (h headB).next ≠ NULL := wf_mem_ne hB (List.mem_cons_of_mem _ hfm)
  have hl0 : (h headB).prev ≠ NULL := wf_mem_ne hB (List.mem_cons_of_mem _ hlm)
  have hn0 := wf_next_head_ne hA
  have hp0 := wf_prev_head_ne hA
  obtain ⟨_, hAs0, hAnd, hAc⟩ := (wellFormed_iff _ _ _).1 hA
  have hBnd : bs.Nodup := (List.nodup_cons.1 hB.2.2.1).2
  have hBs0 := hB.2.1
  have hdis2 : ∀ a ∈ headA :: as, a ∉ bs := fun a ha m => hdis a ha (List.mem_cons_of_mem _ m)
  have hnd1 : ((headA :: as) ++ bs).Nodup :=
    List.nodup_append.2 ⟨hAnd, hBnd, fun a ha m => hdis2 a ha m⟩
  have hnd2 : ((as ++ [headA]) ++ bs).Nodup := by
    refine List.nodup_append.2 ⟨nodup_rotate_one hAnd, hBnd, fun a ha m => hdis2 a ?_ m⟩
    simp only [List.mem_append, List.mem_singleton] at ha
    simp only [List.mem_cons]; tauto
  have hnull : NULL ∉ bs ++ as ∧ NULL ∉ as ++ bs := by
    simp only [List.mem_append, not_or]; tauto
  refine ⟨by simp [list_empty_ok hB0, hfne],
    list_splice_raw_ok h hB0 hf0 hl0 hA0 hn0, ?_,
    list_splice_raw_ok h hB0 hf0 hl0 hp0 hA0, ?_⟩
  · rw [wellFormed_iff]
    refine ⟨hA0, hnull.1, ?_, ?_⟩
    · have hp : (headA :: (bs ++ as)).Perm ((headA :: as) ++ bs) :=
        List.Perm.cons headA List.perm_append_comm
      exact hp.nodup_iff.2 hnd1
    · have hc2 : Cyc h (as ++ [headA]) := (cyc_rotate h [headA] as).1 hAc
      have := cyc_splice hnd2 (wf_next_head hA) (List.getLast?_concat as) hf hl hc2
        (wf_chain_entries hB)
      rw [List.append_assoc] at this
      exact (cyc_rotate _ as ([headA] ++ bs)).1 this
  · rw [wellFormed_iff]
    refine ⟨hA0, hnull.2, hnd1, ?_⟩
    exact cyc_splice hnd1 List.head?_cons (wf_prev_head hA) hf hl hAc (wf_chain_entries hB)

/-- C5 (splice after head). For well-formed lists with disjoint nodes, `as` anchored at
`headA` and a non-empty `bs` anchored at `headB`, `list_splice(headB, headA)` succeeds and
the list anchored at `headA` is well-formed with forward iteration `bs ++ as`. For lists
`[1,2,3]` and `[4,5]` built with `list_add_tail` in zeroed memory, the result iterates
`4,5,1,2,3`. -/
theorem list_splice_front :
    (∀ (h : Heap) (headA headB : Ptr) (as bs : List Ptr),
        WellFormed h headA as → WellFormed h headB bs → bs ≠ [] →
        (∀ a ∈ headA :: as, a ∉ headB :: bs) →
        ∃ h2, list_splice headB headA h = .ok h2 ∧ WellFormed h2 headA (bs ++ as) ∧
          ∀ fuel, (bs ++ as).length + 1 ≤ fuel → forward headA fuel h2 = .ok (bs ++ as)) ∧
    (∀ (fuel : Nat), 6 ≤ fuel →
        (INIT_LIST_HEAD 10 zero_heap >>= fun h => INIT_LIST_HEAD 20 h >>= fun h =>
          [1, 2, 3].foldlM (fun h v => list_add_tail v 10 h) h >>= fun h =>
          [4, 5].foldlM (fun h v => list_add_tail v 20 h) h >>= fun h =>
          list_splice 20 10 h >>= fun h => forward 10 fuel h) = .ok [4, 5, 1, 2, 3]) := by
  refine ⟨?_, ?_⟩
  · intro h headA headB as bs hA hB hne hdis
    obtain ⟨hemp, hrun, hw, _, _⟩ := wf_splice hA hB hne hdis
    refine ⟨_, ?_, hw, fun fuel hf => forward_of_wf hw hf⟩
    simp [list_splice, hemp, load_next_ok hA.1, hrun]
  · intro fuel hf
    obtain ⟨k, rfl⟩ : ∃ k, fuel = k + 6 := ⟨fuel - 6, by omega⟩
    rfl

/-- Witness of C5 on the sample heap: the list `11, 12` anchored at `10` is spliced after
head `1` of the list `2, 3`. -/
theorem list_splice_front_witness :
    WellFormed sample_heap 1 [2, 3] ∧ WellFormed sample_heap 10 [11, 12] ∧
      ∃ h2, list_splice 10 1 sample_heap = .ok h2 ∧ WellFormed h2 1 ([11, 12] ++ [2, 3]) ∧
        ∀ fuel, ([11, 12] ++ [2, 3] : List Ptr).length + 1 ≤ fuel →
          forward 1 fuel h2 = .ok ([11, 12] ++ [2, 3]) :=
  ⟨by decide, by decide,
    list_splice_front.1 sample_heap 1 10 [2, 3] [11, 12] (by decide) (by decide) (by decide)
      (by decide)⟩

/-- C6 (splice at tail). For well-formed lists with disjoint nodes, `as` anchored at `headA`
and a non-empty `bs` anchored at `headB`, `list_splice_tail(headB, headA)` succeeds and the
list anchored at `headA` is well-formed with forward iteration `as ++ bs`. For lists
`[1,2,3]` and `[4,5]` built with `list_add_tail` in zeroed memory, the result iterates
`1,2,3,4,5`. -/
theorem list_splice_tail_back :
    (∀ (h : Heap) (headA headB : Ptr) (as bs : List Ptr),
        WellFormed h headA as → WellFormed h headB bs → bs ≠ [] →
        (∀ a ∈ headA :: as, a ∉ headB :: bs) →
        ∃ h2, list_splice_tail headB headA h = .ok h2 ∧ WellFormed h2 headA (as ++ bs) ∧
          (as ++ bs).getLast? = bs.getLast? ∧
          ∀ fuel, (as ++ bs).length + 1 ≤ fuel → forward headA fuel h2 = .ok (as ++ bs)) ∧
    (∀ (fuel : Nat), 6 ≤ fuel →
        (INIT_LIST_HEAD 10 zero_heap >>= fun h => INIT_LIST_HEAD 20 h >>= fun h =>
          [1, 2, 3].foldlM (fun h v => list_add_tail v 10 h) h >>= fun h =>
          [4, 5].foldlM (fun h v => list_add_tail v 20 h) h >>= fun h =>
          list_splice_tail 20 10 h >>= fun h => forward 10 fuel h) = .ok [1, 2, 3, 4, 5]) := by
  refine ⟨?_, ?_⟩
  · intro h headA headB as bs hA hB hne hdis
    obtain ⟨hemp, _, _, hrun, hw⟩ := wf_splice hA hB hne hdis
    refine ⟨_, ?_, hw, List.getLast?_append_of_ne_nil _ hne, fun fuel hf => forward_of_wf hw hf⟩
    simp [list_splice_tail, hemp, load_prev_ok hA.1, hrun]
  · intro fuel hf
    obtain ⟨k, rfl⟩ : ∃ k, fuel = k + 6 := ⟨fuel - 6, by omega⟩
    rfl

/-- Witness of C6 on the sample heap: the list `11, 12` anchored at `10` is spliced before
head `1` of the list `2, 3`. -/
theorem list_splice_tail_back_witness :
    WellFormed sample_heap 1 [2, 3] ∧ WellFormed sample_heap 10 [11, 12] ∧
      ∃ h2, list_splice_tail 10 1 sample_heap = .ok h2 ∧
        WellFormed h2 1 ([2, 3] ++ [11, 12]) ∧
        ([2, 3] ++ [11, 12] : List Ptr).getLast? = [11, 12].getLast? ∧
        ∀ fuel, ([2, 3] ++ [11, 12] : List Ptr).length + 1 ≤ fuel →
          forward 1 fuel h2 = .ok ([2, 3] ++ [11, 12]) :=
  ⟨by decide, by decide,
    list_splice_tail_back.1 sample_heap 1 10 [2, 3] [11, 12] (by decide) (by decide)
      (by decide) (by decide)⟩

/-- The guard `!list_empty(list)` of the four splice functions fails on an empty source. -/
theorem splice_of_empty {h : Heap} {list : Ptr} (hemp : list_empty list h = .ok true)
    (head : Ptr) :
    list_splice list head h = .ok h ∧ list_splice_tail list head h = .ok h ∧
      list_splice_init list head h = .ok h ∧ list_splice_tail_init list head h = .ok h := by
  simp [list_splice, list_splice_tail, list_splice_init, list_splice_tail_init, hemp]

/-- C7 (splicing an empty list is a no-op). If `list_empty(list)` holds, each of
`list_splice`, `list_splice_tail`, `list_splice_init` and `list_splice_tail_init` returns
the input heap unchanged, whatever the target head is. -/
theorem splice_empty_noop (h : Heap) (list head : Ptr) (hemp : list_empty list h = .ok true) :
    list_splice list head h = .ok h ∧ list_splice_tail list head h = .ok h ∧
      list_splice_init list head h = .ok h ∧ list_splice_tail_init list head h = .ok h :=
  splice_of_empty hemp head

/-- Witness of C7 on the sample heap: the empty list anchored at `20` is spliced into the
list anchored at `1`. -/
theorem splice_empty_noop_witness :
    list_empty 20 sample_heap = .ok true ∧
      (list_splice 20 1 sample_heap = .ok sample_heap ∧
        list_splice_tail 20 1 sample_heap = .ok sample_heap ∧
        list_splice_init 20 1 sample_heap = .ok sample_heap ∧
        list_splice_tail_init 20 1 sample_heap = .ok sample_heap) :=
  ⟨by decide, splice_empty_noop sample_heap 20 1 (by decide)⟩

/-- In a well-formed list the `next` and `prev` of every node are nodes of the list. -/
theorem wf_closed {h : Heap} {head : Ptr} {es : List Ptr} (hwf : WellFormed h head es) :
    ∀ y ∈ head :: es, (h y).next ∈ head :: es ∧ (h y).prev ∈ head :: es := by
  intro y hy
  rcases List.mem_cons.1 hy with rfl | hy
  · have h1 := List.mem_of_mem_head? (wf_next_head hwf)
    have h2 := List.mem_of_mem_getLast? (wf_prev_head hwf)
    simp only [List.mem_append, List.mem_singleton, List.mem_cons] at h1 h2 ⊢
    tauto
  · obtain ⟨l1, l2, rfl⟩ := List.append_of_mem hy
    obtain ⟨hn, hp⟩ := wf_neighbours hwf
    have h1 := List.mem_of_mem_head? hn
    have h2 := List.mem_of_mem_getLast? hp
    simp only [List.mem_append, List.mem_singleton, List.mem_cons] at h1 h2 ⊢
    tauto

/-- Re-initialising a head that is not a node of a well-formed list. -/
theorem init_beside {h1 : Heap} {head list : Ptr} {es : List Ptr}
    (hw : WellFormed h1 head es) (hl0 : list ≠ NULL) (hnot : list ∉ head :: es) :
    INIT_LIST_HEAD list h1 = .ok (set_prev list list (set_next list list h1)) ∧
      (set_prev list list (set_next list list h1) list).next = list ∧
      (set_prev list list (set_next list list h1) list).prev = list ∧
      list_empty list (set_prev list list (set_next list list h1)) = .ok true ∧
      WellFormed (set_prev list list (set_next list list h1)) list [] ∧
      WellFormed (set_prev list list (set_next list list h1)) head es ∧
      ∀ y ∈ head :: es, (set_prev list list (set_next list list h1) y).next ≠ list ∧
        (set_prev list list (set_next list list h1) y).prev ≠ list := by
  obtain ⟨hinit, hwl⟩ := init_wf hl0 h1
  have hw2 : WellFormed (set_prev list list (set_next list list h1)) head es := by
    refine wf_frame hw ?_
    intro u hu
    have : u ≠ list := fun e => hnot (e ▸ hu)
    simp [set_prev, set_next, this]
  refine ⟨hinit, by simp, by simp, by simp [list_empty_ok hl0], hwl, hw2, ?_⟩
  intro y hy
  obtain ⟨h1m, h2m⟩ := wf_closed hw2 y hy
  exact ⟨fun e => hnot (e ▸ h1m), fun e => hnot (e ▸ h2m)⟩

/-- An empty well-formed list beside a well-formed list. -/
theorem empty_beside {h : Heap} {head list : Ptr} {es : List Ptr}
    (hw : WellFormed h head es) (hl : WellFormed h list []) (hnot : list ∉ head :: es) :
    (h list).next = list ∧ (h list).prev = list ∧ list_empty list h = .ok true ∧
      ∀ y ∈ head :: es, (h y).next ≠ list ∧ (h y).prev ≠ list := by
  have h1 : (h list).next = list := by
    have := wf_next_head hl
    simpa using this.symm
  have h2 : (h list).prev = list := by
    have := wf_prev_head hl
    simpa using this.symm
  refine ⟨h1, h2, by simp [list_empty_ok hl.1, h1], ?_⟩
  intro y hy
  obtain ⟨h1m, h2m⟩ := wf_closed hw y hy
  exact ⟨fun e => hnot (e ▸ h1m), fun e => hnot (e ▸ h2m)⟩

/-- C8 (`splice_init` empties the source). For well-formed lists with disjoint nodes, `as`
anchored at `head` and `bs` (possibly empty) anchored at `list`: after
`list_splice_init(list, head)`, and likewise after `list_splice_tail_init(list, head)`, the
source head is an empty self-loop (`list->next == list`, `list->prev == list`,
`list_empty(list)`, a well-formed empty list), no node of the target list has `list` as its
`next` or `prev`, and the target is well-formed with the same forward iteration as after the
corresponding plain splice: `bs ++ as`, resp. `as ++ bs`. -/
theorem splice_init_empties (h : Heap) (head list : Ptr) (as bs : List Ptr)
    (hA : WellFormed h head as) (hB : WellFormed h list bs)
    (hdis : ∀ a ∈ head :: as, a ∉ list :: bs) :
    (∃ h1 h2, list_splice list head h = .ok h1 ∧ list_splice_init list head h = .ok h2 ∧
      (h2 list).next = list ∧ (h2 list).prev = list ∧ list_empty list h2 = .ok true ∧
      WellFormed h2 list [] ∧ WellFormed h2 head (bs ++ as) ∧
      (∀ y ∈ head :: (bs ++ as), (h2 y).next ≠ list ∧ (h2 y).prev ≠ list) ∧
      ∀ fuel, (bs ++ as).length + 1 ≤ fuel →
        forward head fuel h2 = .ok (bs ++ as) ∧ forward head fuel h1 = .ok (bs ++ as)) ∧
    (∃ h1 h2, list_splice_tail list head h = .ok h1 ∧
      list_splice_tail_init list head h = .ok h2 ∧
      (h2 list).next = list ∧ (h2 list).prev = list ∧ list_empty list h2 = .ok true ∧
      WellFormed h2 list [] ∧ WellFormed h2 head (as ++ bs) ∧
      (∀ y ∈ head :: (as ++ bs), (h2 y).next ≠ list ∧ (h2 y).prev ≠ list) ∧
      ∀ fuel, (as ++ bs).length + 1 ≤ fuel →
        forward head fuel h2 = .ok (as ++ bs) ∧ forward head fuel h1 = .ok (as ++ bs)) := by
  have hlA : list ∉ head :: as := fun m => hdis list m (by simp)
  rcases bs with _ | ⟨b, bs⟩
  · obtain ⟨e1, e2, e3, e4⟩ := empty_beside hA hB hlA
    obtain ⟨n1, n2, n3, n4⟩ := splice_of_empty e3 head
    refine ⟨⟨h, h, n1, n3, e1, e2, e3, hB, hA, e4, fun fuel hf => ?_⟩,
      ⟨h, h, n2, n4, e1, e2, e3, hB, by simpa using hA, by simpa using e4, fun fuel hf => ?_⟩⟩
    · exact ⟨forward_of_wf hA hf, forward_of_wf hA hf⟩
    · simp only [List.append_nil] at hf ⊢
      exact ⟨forward_of_wf hA hf, forward_of_wf hA hf⟩
  · obtain ⟨hemp, hr1, hw1, hr2, hw2⟩ := wf_splice hA hB (List.cons_ne_nil b bs) hdis
    have hl0 := hB.1
    have hlB : list ∉ b :: bs := (List.nodup_cons.1 hB.2.2.1).1
    have hnot1 : list ∉ head :: (b :: bs ++ as) := by
      simp only [List.mem_cons, List.mem_append, not_or] at hlA hlB ⊢
      tauto
    have hnot2 : list ∉ head :: (as ++ b :: bs) := by
      simp only [List.mem_cons, List.mem_append, not_or] at hlA hlB ⊢
      tauto
    obtain ⟨i1, i2, i3, i4, i5, i6, i7⟩ := init_beside hw1 hl0 hnot1
    obtain ⟨j1, j2, j3, j4, j5, j6, j7⟩ := init_beside hw2 hl0 hnot2
    refine ⟨⟨splice_heap (h list).next (h list).prev head (h head).next h, _, ?_, ?_,
        i2, i3, i4, i5, i6, i7, fun fuel hf => ?_⟩,
      ⟨splice_heap (h list).next (h list).prev (h head).prev head h, _, ?_, ?_,
        j2, j3, j4, j5, j6, j7, fun fuel hf => ?_⟩⟩
    · simp [list_splice, hemp, load_next_ok hA.1, hr1]
    · simp [list_splice_init, hemp, load_next_ok hA.1, hr1, i1]
    · exact ⟨forward_of_wf i6 hf, forward_of_wf hw1 hf⟩
    · simp [list_splice_tail, hemp, load_prev_ok hA.1, hr2]
    · simp [list_splice_tail_init, hemp, load_prev_ok hA.1, hr2, j1]
    · exact ⟨forward_of_wf j6 hf, forward_of_wf hw2 hf⟩

/-- Witness of C8 on the sample heap: the list `11, 12` anchored at `10` is spliced, with
re-initialisation of its head, into the list `2, 3` anchored at `1`. -/
theorem splice_init_empties_witness :
    WellFormed sample_heap 1 [2, 3] ∧ WellFormed sample_heap 10 [11, 12] ∧
      (∃ h2, list_splice_init 10 1 sample_heap = .ok h2 ∧ (h2 10).next = 10 ∧
        (h2 10).prev = 10 ∧ WellFormed h2 1 ([11, 12] ++ [2, 3])) ∧
      (∃ h2, list_splice_tail_init 10 1 sample_heap = .ok h2 ∧ (h2 10).next = 10 ∧
        (h2 10).prev = 10 ∧ WellFormed h2 1 ([2, 3] ++ [11, 12])) := by
  obtain ⟨⟨_, h2, _, r2, a1, a2, _, _, a3, _⟩, ⟨_, h4, _, r4, b1, b2, _, _, b3, _⟩⟩ :=
    splice_init_empties sample_heap 1 10 [2, 3] [11, 12] (by decide) (by decide) (by decide)
  exact ⟨by decide, by decide, ⟨h2, r2, a1, a2, a3⟩, ⟨h4, r4, b1, b2, b3⟩⟩

/-! ## Move and round trip -/

theorem add_heap_frame (x p n : Ptr) (h : Heap) {u : Ptr} (hx : u ≠ x) (hp : u ≠ p)
    (hn : u ≠ n) : add_heap x p n h u = h u := by
  simp [add_heap, set_next, set_prev, hx, hp, hn]

theorem list_del_heap_frame (x : Ptr) (h : Heap) {u : Ptr} (hx : u ≠ x)
    (hp : u ≠ (h x).prev) (hn : u ≠ (h x).next) : list_del_heap x h u = h u := by
  simp [list_del_heap, del_heap, set_next, set_prev, hx, hp, hn]

/-- The neighbours of an entry point back at it. -/
theorem wf_entry_links {h : Heap} {head e : Ptr} {l1 l2 : List Ptr}
    (hwf : WellFormed h head (l1 ++ e :: l2)) :
    (h (h e).prev).next = e ∧ (h (h e).next).prev = e := by
  obtain ⟨hn, hp⟩ := wf_neighbours hwf
  obtain ⟨_, _, _, hcyc⟩ := (wellFormed_iff _ _ _).1 hwf
  have hc : Cyc h (e :: (l2 ++ head :: l1)) := (cyc_rotate h (head :: l1) (e :: l2)).1 hcyc
  have hn2 : (l2 ++ head :: l1).head? = some (h e).next := by
    rw [head?_append_cons]; exact hn
  have hp2 : (l2 ++ head :: l1).getLast? = some (h e).prev := by
    rw [List.getLast?_append_of_ne_nil _ (List.cons_ne_nil _ _)]; exact hp
  obtain ⟨_, _, e3, e4⟩ := cyc_cons_links hn2 hp2 hc
  exact ⟨e3, e4⟩

/-- `list_move` and `list_move_tail` agree with `list_del` followed by the insertion, on
every heap, when the target head is not the moved node. -/
theorem move_eq_del_add (h : Heap) (x head : Ptr) (hne : head ≠ x) :
    list_move x head h = (list_del x h >>= list_add x head) ∧
      list_move_tail x head h = (list_del x h >>= list_add_tail x head) := by
  by_cases hx : x = NULL
  · simp [list_move, list_move_tail, list_del, load_prev, hx]
  · simp only [list_move, list_move_tail, list_del, load_prev_ok hx, load_next_ok hx, bind_ok]
    cases hd : __list_del (h x).prev (h x).next h with
    | error e => simp
    | ok h1 =>
      simp only [bind_ok, store_next_ok hx, store_prev_ok hx]
      by_cases hh : head = NULL
      · simp [list_add, list_add_tail, load_next, load_prev, hh]
      · have e1 : (set_prev x NULL (set_next x NULL h1) head).next = (h1 head).next := by
          simp [hne]
        have e2 : (set_prev x NULL (set_next x NULL h1) head).prev = (h1 head).prev := by
          simp [hne]
        have key : ∀ p n : Ptr, __list_add x p n (set_prev x NULL (set_next x NULL h1)) =
            __list_add x p n h1 := by
          intro p n
          by_cases hp : p = NULL
          · simp [__list_add, store_next, store_prev, hp, hx]
            split <;> rfl
          by_cases hn : n = NULL
          · simp [__list_add, store_prev, hn]
          rw [list_add_raw_ok hx hp hn, list_add_raw_ok hx hp hn]
          congr 1
          apply heap_ext <;> intro a <;> simp [add_heap] <;> split_ifs <;> simp_all
        simp only [list_add, list_add_tail, load_next_ok hh, load_prev_ok hh, bind_ok, e1, e2,
          key]
        exact ⟨trivial, trivial⟩

/-- Removing an entry of one list leaves a disjoint well-formed list as it is. -/
theorem wf_del_other {h : Heap} {head head2 x : Ptr} {es l1 l2 : List Ptr}
    (hA : WellFormed h head es) (hB : WellFormed h head2 (l1 ++ x :: l2))
    (hdis : ∀ a ∈ head :: es, a ∉ head2 :: (l1 ++ x :: l2)) :
    WellFormed (list_del_heap x h) head es := by
  refine wf_frame hA ?_
  intro u hu
  have hnot := hdis u hu
  have hxm : x ∈ head2 :: (l1 ++ x :: l2) := by simp
  obtain ⟨hn, hp⟩ := wf_closed hB x hxm
  exact list_del_heap_frame x h (fun e => hnot (e ▸ hxm)) (fun e => hnot (e ▸ hp))
    (fun e => hnot (e ▸ hn))

/-- Inserting into one list leaves a disjoint well-formed list as it is. -/
theorem wf_add_other {h : Heap} {head head2 x p n : Ptr} {es bs : List Ptr}
    (hB : WellFormed h head2 bs) (hx : x ∉ head2 :: bs)
    (hp : p ∈ head :: es) (hn : n ∈ head :: es)
    (hdis : ∀ a ∈ head :: es, a ∉ head2 :: bs) :
    WellFormed (add_heap x p n h) head2 bs := by
  refine wf_frame hB ?_
  intro u hu
  exact add_heap_frame x p n h (fun e => hx (e ▸ hu)) (fun e => hdis p hp (e ▸ hu))
    (fun e => hdis n hn (e ▸ hu))

/-- C9 (move is remove-then-insert). When `head` is not the moved node `x`,
`list_move(x, head)` gives exactly the result of `list_del(x)` followed by
`list_add(x, head)`, and `list_move_tail(x, head)` that of `list_del(x)` followed by
`list_add_tail(x, head)`. If `x` is an entry of the well-formed list anchored at `head`, it
becomes its first (resp. last) entry and the other entries keep their order; if `x` is an
entry of another, disjoint well-formed list anchored at `head2`, it becomes the first
(resp. last) entry of `head`'s list and both lists keep the order of their other entries. -/
theorem list_move_is_del_add :
    (∀ (h : Heap) (x head : Ptr), head ≠ x →
        list_move x head h = (list_del x h >>= list_add x head) ∧
        list_move_tail x head h = (list_del x h >>= list_add_tail x head)) ∧
    (∀ (h : Heap) (head x : Ptr) (l1 l2 : List Ptr), WellFormed h head (l1 ++ x :: l2) →
        ∃ h2 h3, list_move x head h = .ok h2 ∧ WellFormed h2 head (x :: (l1 ++ l2)) ∧
          list_move_tail x head h = .ok h3 ∧ WellFormed h3 head (l1 ++ l2 ++ [x])) ∧
    (∀ (h : Heap) (head head2 x : Ptr) (es l1 l2 : List Ptr),
        WellFormed h head es → WellFormed h head2 (l1 ++ x :: l2) →
        (∀ a ∈ head :: es, a ∉ head2 :: (l1 ++ x :: l2)) →
        ∃ h2 h3, list_move x head h = .ok h2 ∧ WellFormed h2 head (x :: es) ∧
          WellFormed h2 head2 (l1 ++ l2) ∧
          list_move_tail x head h = .ok h3 ∧ WellFormed h3 head (es ++ [x]) ∧
          WellFormed h3 head2 (l1 ++ l2)) := by
  refine ⟨move_eq_del_add, ?_, ?_⟩
  · intro h head x l1 l2 hwf
    obtain ⟨hx0, _, _, _, _, hx, _⟩ := wf_unlink hwf
    obtain ⟨hdel, hwd⟩ := wf_del hwf
    have hne : head ≠ x := (wf_entry_ne_head hwf).symm
    obtain ⟨m1, m2⟩ := move_eq_del_add h x head hne
    obtain ⟨a1, a2⟩ := wf_add hwd hx0 hx
    obtain ⟨b1, b2⟩ := wf_add_tail hwd hx0 hx
    exact ⟨_, _, by rw [m1, hdel]; exact a1, a2, by rw [m2, hdel]; exact b1, b2⟩
  · intro h head head2 x es l1 l2 hA hB hdis
    obtain ⟨hx0, _, _, _, _, hx, _⟩ := wf_unlink hB
    obtain ⟨hdel, hwd⟩ := wf_del hB
    have hxB : x ∈ head2 :: (l1 ++ x :: l2) := by simp
    have hxA : x ∉ head :: es := fun m => hdis x m hxB
    have hne : head ≠ x := fun e => hxA (by simp [e])
    obtain ⟨m1, m2⟩ := move_eq_del_add h x head hne
    have hAd := wf_del_other hA hB hdis
    obtain ⟨a1, a2⟩ := wf_add hAd hx0 hxA
    obtain ⟨b1, b2⟩ := wf_add_tail hAd hx0 hxA
    have hdis2 : ∀ a ∈ head :: es, a ∉ head2 :: (l1 ++ l2) := by
      intro a ha m
      apply hdis a ha
      simp only [List.mem_cons, List.mem_append] at m ⊢
      tauto
    have hhm : head ∈ head :: es := by simp
    refine ⟨_, _, by rw [m1, hdel]; exact a1, a2, ?_, by rw [m2, hdel]; exact b1, b2, ?_⟩
    · exact wf_add_other hwd hx hhm (wf_closed hAd head hhm).1 hdis2
    · exact wf_add_other hwd hx (wf_closed hAd head hhm).2 hhm hdis2

/-- Witness of C9 on the sample heap: entry `3` of the list `2, 3` anchored at `1` is moved
within its list, and entry `11` of the list anchored at `10` is moved into the list anchored
at `1`. -/
theorem list_move_is_del_add_witness :
    (1 ≠ 3 ∧ list_move 3 1 sample_heap = (list_del 3 sample_heap >>= list_add 3 1) ∧
      list_move_tail 3 1 sample_heap = (list_del 3 sample_heap >>= list_add_tail 3 1)) ∧
    (WellFormed sample_heap 1 ([2] ++ 3 :: []) ∧
      ∃ h2 h3, list_move 3 1 sample_heap = .ok h2 ∧ WellFormed h2 1 (3 :: ([2] ++ [])) ∧
        list_move_tail 3 1 sample_heap = .ok h3 ∧ WellFormed h3 1 ([2] ++ [] ++ [3])) ∧
    (WellFormed sample_heap 1 [2, 3] ∧ WellFormed sample_heap 10 ([] ++ 11 :: [12]) ∧
      ∃ h2 h3, list_move 11 1 sample_heap = .ok h2 ∧ WellFormed h2 1 (11 :: [2, 3]) ∧
        WellFormed h2 10 ([] ++ [12]) ∧
        list_move_tail 11 1 sample_heap = .ok h3 ∧ WellFormed h3 1 ([2, 3] ++ [11]) ∧
        WellFormed h3 10 ([] ++ [12])) :=
  ⟨⟨by decide, list_move_is_del_add.1 sample_heap 3 1 (by decide)⟩,
    ⟨by decide, list_move_is_del_add.2.1 sample_heap 1 3 [2] [] (by decide)⟩,
    ⟨by decide, by decide,
      list_move_is_del_add.2.2 sample_heap 1 10 11 [2, 3] [] [12] (by decide) (by decide)
        (by decide)⟩⟩

/-- C10 (unlink/insert round trip). For an entry `x` of a well-formed list, with
predecessor `x->prev` and successor `x->next` read before the removal, `list_del(x)`
followed by `list_add(x, predecessor)`, and likewise `list_del(x)` followed by
`list_add_tail(x, successor)`, succeeds and returns exactly the original heap; so the list is
still well-formed with the original forward iteration. -/
theorem del_add_round_trip (h : Heap) (head x : Ptr) (l1 l2 : List Ptr)
    (hwf : WellFormed h head (l1 ++ x :: l2)) :
    (list_del x h >>= list_add x (h x).prev) = .ok h ∧
      (list_del x h >>= list_add_tail x (h x).next) = .ok h ∧
      ∀ fuel, (l1 ++ x :: l2).length + 1 ≤ fuel → forward head fuel h = .ok (l1 ++ x :: l2) := by
  obtain ⟨hx0, hp0, hn0, hpx, hnx, _, _⟩ := wf_unlink hwf
  obtain ⟨hdel, _⟩ := wf_del hwf
  obtain ⟨e1, e2⟩ := wf_entry_links hwf
  have hpn : (list_del_heap x h (h x).prev).next = (h x).next := by
    simp [list_del_heap, del_heap, hpx]
  have hnp : (list_del_heap x h (h x).next).prev = (h x).prev := by
    simp [list_del_heap, del_heap, hnx]
  have key : add_heap x (h x).prev (h x).next (list_del_heap x h) = h := by
    apply heap_ext
    · intro a
      simp only [add_heap, list_del_heap, del_heap, set_next_next, set_prev_next]
      split_ifs with c1 c2 <;> simp_all
    · intro a
      simp only [add_heap, list_del_heap, del_heap, set_next_prev, set_prev_prev]
      split_ifs with c1 c2 <;> simp_all
  refine ⟨?_, ?_, fun fuel hf => forward_of_wf hwf hf⟩
  · rw [hdel]
    simp only [bind_ok, list_add, load_next_ok hp0, hpn, list_add_raw_ok hx0 hp0 hn0, key]
  · rw [hdel]
    simp only [bind_ok, list_add_tail, load_prev_ok hn0, hnp, list_add_raw_ok hx0 hp0 hn0, key]

/-- Witness of C10 on the sample heap: entry `2` of the list `2, 3` anchored at `1`. -/
theorem del_add_round_trip_witness :
    WellFormed sample_heap 1 ([] ++ 2 :: [3]) ∧
      (list_del 2 sample_heap >>= list_add 2 (sample_heap 2).prev) = .ok sample_heap ∧
      (list_del 2 sample_heap >>= list_add_tail 2 (sample_heap 2).next) = .ok sample_heap ∧
      ∀ fuel, ([] ++ 2 :: [3] : List Ptr).length + 1 ≤ fuel →
        forward 1 fuel sample_heap = .ok ([] ++ 2 :: [3]) :=
  ⟨by decide, del_add_round_trip sample_heap 1 2 [] [3] (by decide)⟩

/-! ## Emptiness -/

/-- On a well-formed list `head->next == head` holds exactly when there is no entry. -/
theorem wf_next_eq_head_iff {h : Heap} {head : Ptr} {es : List Ptr}
    (hwf : WellFormed h head es) : (h head).next = head ↔ es = [] := by
  constructor
  · intro e
    by_contra hne
    exact (wf_first_last hwf hne).2.2.1 e
  · rintro rfl
    have := wf_next_head hwf
    simpa using this.symm

theorem wf_list_empty {h : Heap} {head : Ptr} {es : List Ptr} (hwf : WellFormed h head es) :
    list_empty head h = .ok (decide (es = [])) := by
  rw [list_empty_ok hwf.1]
  congr 1
  exact decide_eq_decide.2 (wf_next_eq_head_iff hwf)

/-- Removing distinct entries one after the other with `list_del`. -/
theorem fold_del (head : Ptr) :
    ∀ (ds : List Ptr) (h : Heap) (es : List Ptr), WellFormed h head es → ds.Nodup →
      (∀ d ∈ ds, d ∈ es) →
      ∃ h2, ds.foldlM (fun h d => list_del d h) h = .ok h2 ∧
        WellFormed h2 head (es.filter (fun e => decide (e ∉ ds))) := by
  intro ds
  induction ds with
  | nil => intro h es hwf _ _; exact ⟨h, rfl, by simpa using hwf⟩
  | cons d ds ih =>
    intro h es hwf hnd hsub
    obtain ⟨l1, l2, rfl⟩ := List.append_of_mem (hsub d (by simp))
    obtain ⟨hdel, hwf2⟩ := wf_del hwf
    have hdn : d ∉ l1 ++ l2 := fun m =>
      (nodup_remove_middle hwf.2.2.1).2 (List.mem_cons_of_mem _ m)
    obtain ⟨h2, hf, hw⟩ := ih (list_del_heap d h) (l1 ++ l2) hwf2 (List.nodup_cons.1 hnd).2 (by
      intro e he
      have hed : e ≠ d := fun c => (List.nodup_cons.1 hnd).1 (c ▸ he)
      have := hsub e (List.mem_cons_of_mem _ he)
      simp only [List.mem_append, List.mem_cons] at this ⊢
      tauto)
    refine ⟨h2, by simp [List.foldlM_cons, hdel, hf], ?_⟩
    have e1 : (l1 ++ d :: l2).filter (fun e => decide (e ∉ d :: ds)) =
        (l1 ++ l2).filter (fun e => decide (e ∉ ds)) := by
      have hd1 : d ∉ l1 := fun m => hdn (List.mem_append_left _ m)
      have hd2 : d ∉ l2 := fun m => hdn (List.mem_append_right _ m)
      simp only [List.filter_append, List.filter_cons, List.mem_cons, true_or, not_true_eq_false,
        decide_False, Bool.false_eq_true, if_false]
      congr 1
      · apply List.filter_congr
        intro e he
        have : e ≠ d := fun c => hd1 (c ▸ he)
        simp [this]
      · apply List.filter_congr
        intro e he
        have : e ≠ d := fun c => hd2 (c ▸ he)
        simp [this]
    rw [e1]; exact hw

theorem mem_take_of_mem {vs : List Ptr} {k : Nat} {v : Ptr} (hv : v ∈ vs.take k) : v ∈ vs :=
  (List.take_sublist k vs).subset hv

/-- C11 (emptiness test). For a non-null `head`, `list_empty(head)` returns true exactly
when `head->next == head`. It is true right after `INIT_LIST_HEAD(head)`; after each of one
or more `list_add` insertions of distinct fresh nodes it is false; and after removing
distinct inserted nodes `ds` with `list_del`, in any order, it is true exactly when every
inserted node has been removed. -/
theorem list_empty_spec :
    (∀ (h : Heap) (head : Ptr), head ≠ NULL →
        (list_empty head h = .ok true ↔ (h head).next = head) ∧
        (list_empty head h = .ok false ↔ (h head).next ≠ head)) ∧
    (∀ (h : Heap) (head : Ptr), head ≠ NULL →
        ∃ h0, INIT_LIST_HEAD head h = .ok h0 ∧ list_empty head h0 = .ok true) ∧
    (∀ (h : Heap) (head : Ptr) (vs : List Ptr) (k : Nat),
        head ≠ NULL → NULL ∉ vs → (head :: vs).Nodup → k < vs.length →
        ∃ hk, (INIT_LIST_HEAD head h >>= fun h0 =>
              (vs.take (k + 1)).foldlM (fun h v => list_add v head h) h0) = .ok hk ∧
          list_empty head hk = .ok false) ∧
    (∀ (h : Heap) (head : Ptr) (vs ds : List Ptr),
        head ≠ NULL → NULL ∉ vs → (head :: vs).Nodup → ds.Nodup → (∀ d ∈ ds, d ∈ vs) →
        ∃ h2, (INIT_LIST_HEAD head h >>= fun h0 =>
              vs.foldlM (fun h v => list_add v head h) h0 >>= fun h1 =>
              ds.foldlM (fun h d => list_del d h) h1) = .ok h2 ∧
          list_empty head h2 = .ok (decide (∀ v ∈ vs, v ∈ ds))) := by
  refine ⟨?_, ?_, ?_, ?_⟩
  · intro h head hh
    rw [list_empty_ok hh]
    simp
  · intro h head hh
    obtain ⟨hinit, hwf0⟩ := init_wf hh h
    exact ⟨_, hinit, by simpa using wf_list_empty hwf0⟩
  · intro h head vs k hh h0 hnd hk
    obtain ⟨hinit, hwf0⟩ := init_wf hh h
    have hnd2 : (vs.take (k + 1)).Nodup :=
      (List.nodup_cons.1 hnd).2.sublist (List.take_sublist _ _)
    obtain ⟨hk2, hf, hw⟩ := fold_add head (vs.take (k + 1)) _ [] hwf0
      (fun m => h0 (mem_take_of_mem m)) hnd2 (by
        intro v hv hm
        simp only [List.mem_singleton] at hm
        exact (List.nodup_cons.1 hnd).1 (hm ▸ mem_take_of_mem hv))
    refine ⟨hk2, by simp [hinit, hf], ?_⟩
    rw [wf_list_empty hw]
    congr 1
    rw [decide_eq_false_iff_not]
    intro e
    have hl := congrArg List.length e
    simp only [List.append_nil, List.length_reverse, List.length_take, List.length_nil] at hl
    omega
  · intro h head vs ds hh h0 hnd hdn hsub
    obtain ⟨hinit, hwf0⟩ := init_wf hh h
    obtain ⟨h1, hf, hw⟩ := fold_add head vs _ [] hwf0 h0 (List.nodup_cons.1 hnd).2 (by
      intro v hv hm
      simp only [List.mem_singleton] at hm
      exact (List.nodup_cons.1 hnd).1 (hm ▸ hv))
    rw [List.append_nil] at hw
    obtain ⟨h2, hd, hw2⟩ := fold_del head ds h1 vs.reverse hw hdn
      (fun d hd => List.mem_reverse.2 (hsub d hd))
    refine ⟨h2, by simp [hinit, hf, hd], ?_⟩
    rw [wf_list_empty hw2]
    congr 1
    apply decide_eq_decide.2
    rw [List.filter_eq_nil_iff]
    constructor
    · intro hall v hv
      have := hall v (List.mem_reverse.2 hv)
      simpa using this
    · intro hall v hv
      simpa using hall v (List.mem_reverse.1 hv)

/-- Witness of C11: the test on the sample heap, and in zeroed memory head `1` with nodes
`2, 3` inserted and then removed. -/
theorem list_empty_spec_witness :
    ((list_empty 1 sample_heap = .ok true ↔ (sample_heap 1).next = 1) ∧
      (list_empty 1 sample_heap = .ok false ↔ (sample_heap 1).next ≠ 1)) ∧
    (∃ h0, INIT_LIST_HEAD 1 zero_heap = .ok h0 ∧ list_empty 1 h0 = .ok true) ∧
    (∃ hk, (INIT_LIST_HEAD 1 zero_heap >>= fun h0 =>
          ([2, 3].take (0 + 1)).foldlM (fun h v => list_add v 1 h) h0) = .ok hk ∧
      list_empty 1 hk = .ok false) ∧
    (∃ h2, (INIT_LIST_HEAD 1 zero_heap >>= fun h0 =>
          [2, 3].foldlM (fun h v => list_add v 1 h) h0 >>= fun h1 =>
          [2, 3].foldlM (fun h d => list_del d h) h1) = .ok h2 ∧
      list_empty 1 h2 = .ok (decide (∀ v ∈ [2, 3], v ∈ [2, 3]))) :=
  ⟨list_empty_spec.1 sample_heap 1 (by decide),
    list_empty_spec.2.1 zero_heap 1 (by decide),
    list_empty_spec.2.2.1 zero_heap 1 [2, 3] 0 (by decide) (by decide) (by decide) (by decide),
    list_empty_spec.2.2.2 zero_heap 1 [2, 3] [2, 3] (by decide) (by decide) (by decide)
      (by decide) (by decide)⟩

/-! ## Any member as anchor -/

/-- A well-formed list seen from one of its entries. -/
theorem wf_rotate {h : Heap} {head a : Ptr} {l1 l2 : List Ptr}
    (hwf : WellFormed h head (l1 ++ a :: l2)) : WellFormed h a (l2 ++ head :: l1) := by
  obtain ⟨hh0, hes0, hnd, hcyc⟩ := (wellFormed_iff _ _ _).1 hwf
  rw [wellFormed_iff]
  refine ⟨?_, ?_, ?_, ?_⟩
  · rintro rfl; exact hes0 (by simp)
  · simp only [List.mem_append, List.mem_cons, not_or] at hes0 ⊢
    exact ⟨hes0.2.2, fun e => hh0 e.symm, hes0.1⟩
  · have hp : (a :: (l2 ++ head :: l1)).Perm (head :: (l1 ++ a :: l2)) :=
      (List.perm_append_comm : ((a :: l2) ++ (head :: l1)).Perm ((head :: l1) ++ (a :: l2)))
    exact hp.nodup_iff.2 hnd
  · exact (cyc_rotate h (head :: l1) (a :: l2)).1 hcyc

/-- Every node of a well-formed list is non-null, has non-null neighbours, and its
neighbours point back at it. -/
theorem wf_member_links {h : Heap} {head a : Ptr} {es : List Ptr} (hwf : WellFormed h head es)
    (ha : a ∈ head :: es) :
    a ≠ NULL ∧ (h a).prev ≠ NULL ∧ (h a).next ≠ NULL ∧
      (h (h a).prev).next = a ∧ (h (h a).next).prev = a := by
  have ha0 := wf_mem_ne hwf ha
  obtain ⟨hn, hp⟩ := wf_closed hwf a ha
  refine ⟨ha0, wf_mem_ne hwf hp, wf_mem_ne hwf hn, ?_⟩
  rcases List.mem_cons.1 ha with rfl | hm
  · rcases es with _ | ⟨e, t⟩
    · have e1 : (h a).next = a := (wf_next_eq_head_iff hwf).2 rfl
      have e2 : (h a).prev = a := by
        have := wf_prev_head hwf
        simpa using this.symm
      rw [e2, e1, e2]; exact ⟨rfl, rfl⟩
    · have hr : WellFormed h e (t ++ a :: []) := @wf_rotate h a e [] t (by simpa using hwf)
      exact wf_entry_links hr
  · obtain ⟨l1, l2, rfl⟩ := List.append_of_mem hm
    exact wf_entry_links hwf

/-- C12 (removal, variant B). On a well-formed list with entries `l1 ++ x :: l2`,
`list_del_init(x)` succeeds; the list anchored at `head` is well-formed with forward
iteration `l1 ++ l2`; `x` is a self-loop, `list_empty(x)` is true and `x` anchors a
well-formed empty list; and `list_add(y, x)` of any other non-null node `y` then yields the
well-formed one-entry list `[y]` anchored at `x`, leaving `head`'s list as it is when `y` is
not one of its nodes. -/
theorem list_del_init_detaches (h : Heap) (head x : Ptr) (l1 l2 : List Ptr)
    (hwf : WellFormed h head (l1 ++ x :: l2)) :
    ∃ h2, list_del_init x h = .ok h2 ∧ WellFormed h2 head (l1 ++ l2) ∧
      (∀ fuel, (l1 ++ l2).length + 1 ≤ fuel → forward head fuel h2 = .ok (l1 ++ l2)) ∧
      (h2 x).next = x ∧ (h2 x).prev = x ∧ list_empty x h2 = .ok true ∧
      WellFormed h2 x [] ∧
      ∀ y, y ≠ NULL → y ≠ x →
        ∃ h3, list_add y x h2 = .ok h3 ∧ WellFormed h3 x [y] ∧
          (y ∉ head :: (l1 ++ l2) → WellFormed h3 head (l1 ++ l2)) := by
  obtain ⟨hx0, hp0, hn0, _, _, hx, hwf2⟩ := wf_unlink hwf
  obtain ⟨i1, i2, i3, i4, i5, i6, _⟩ := init_beside hwf2 hx0 hx
  refine ⟨_, ?_, i6, fun fuel hf => forward_of_wf i6 hf, i2, i3, i4, i5, ?_⟩
  · simp [list_del_init, load_prev_ok hx0, load_next_ok hx0, list_del_raw_ok hp0 hn0, i1]
  · intro y hy0 hyx
    obtain ⟨a1, a2⟩ := wf_add i5 hy0 (by simpa using hyx)
    refine ⟨_, a1, a2, fun hy => ?_⟩
    refine @wf_add_other _ x _ _ _ _ [] _ i6 hy (by simp) ?_ ?_
    · rw [i2]; simp
    · intro a ha
      simp only [List.mem_singleton] at ha
      rw [ha]; exact hx

/-- Witness of C12 on the sample heap: entry `2` of the list `2, 3` anchored at `1`. -/
theorem list_del_init_detaches_witness :
    WellFormed sample_heap 1 ([] ++ 2 :: [3]) ∧
      ∃ h2, list_del_init 2 sample_heap = .ok h2 ∧ WellFormed h2 1 ([] ++ [3]) ∧
        (h2 2).next = 2 ∧ (h2 2).prev = 2 ∧ list_empty 2 h2 = .ok true ∧ WellFormed h2 2 [] := by
  obtain ⟨h2, r, w, _, a, b, c, d, _⟩ :=
    list_del_init_detaches sample_heap 1 2 [] [3] (by decide)
  exact ⟨by decide, h2, r, w, a, b, c, d⟩

/-- C13 (`list_add_tail` is `list_add` at the predecessor). For a well-formed list, any of
its nodes `anchor` (head or entry) and a non-null node `x` outside it,
`list_add_tail(x, anchor)` and `list_add(x, anchor->prev)`, with `anchor->prev` read before
the call, return the same heap, and they do return one: in it `x` sits between the old
predecessor and `anchor`. -/
theorem add_tail_eq_add_at_prev (h : Heap) (head anchor x : Ptr) (es : List Ptr)
    (hwf : WellFormed h head es) (ha : anchor ∈ head :: es) (hx0 : x ≠ NULL)
    (hx : x ∉ head :: es) :
    list_add_tail x anchor h = list_add x (h anchor).prev h ∧
      ∃ h2, list_add_tail x anchor h = .ok h2 ∧
        (h2 (h anchor).prev).next = x ∧ (h2 x).prev = (h anchor).prev ∧
        (h2 x).next = anchor ∧ (h2 anchor).prev = x := by
  obtain ⟨ha0, hp0, _, hpn, _⟩ := wf_member_links hwf ha
  have hxa : anchor ≠ x := fun e => hx (e ▸ ha)
  have hxp : x ≠ (h anchor).prev := fun e => hx (e ▸ (wf_closed hwf anchor ha).2)
  refine ⟨?_, add_heap x (h anchor).prev anchor h, ?_, ?_⟩
  · simp only [list_add_tail, list_add, load_prev_ok ha0, load_next_ok hp0, bind_ok, hpn]
  · simp [list_add_tail, load_prev_ok ha0, list_add_raw_ok hx0 hp0 ha0]
  · simp [add_heap, hxa, hxp]

/-- Witness of C13 on the sample heap: node `4` inserted before entry `3` of the list
`2, 3` anchored at `1`. -/
theorem add_tail_eq_add_at_prev_witness :
    WellFormed sample_heap 1 [2, 3] ∧
      list_add_tail 4 3 sample_heap = list_add 4 (sample_heap 3).prev sample_heap ∧
      ∃ h2, list_add_tail 4 3 sample_heap = .ok h2 ∧
        (h2 (sample_heap 3).prev).next = 4 ∧ (h2 4).prev = (sample_heap 3).prev ∧
        (h2 4).next = 3 ∧ (h2 3).prev = 4 :=
  ⟨by decide,
    add_tail_eq_add_at_prev sample_heap 1 3 4 [2, 3] (by decide) (by decide) (by decide)
      (by decide)⟩

/-! ## Reverse iteration and totality of iteration -/

/-- The collecting reverse loop walks a chain of `prev` links up to `head`. -/
theorem for_each_reverse_from_collect {α : Type} (g : Ptr → α) (h : Heap) (head : Ptr) :
    ∀ (rest : List Ptr) (a : Ptr) (acc : List α) (fuel : Nat),
      List.Chain (flip (Linked h)) a (rest ++ [head]) → head ∉ rest → NULL ∉ rest →
      rest.length + 1 ≤ fuel →
      for_each_reverse_from (fun pos (acc : List α) h => .ok (acc ++ [g pos], h)) head fuel
        (h a).prev acc h = .ok (acc ++ rest.map g, h) := by
  intro rest
  induction rest with
  | nil =>
    intro a acc fuel hc _ _ hfuel
    obtain ⟨k, rfl⟩ : ∃ k, fuel = k + 1 := ⟨fuel - 1, by simp at hfuel; omega⟩
    simp only [List.nil_append, List.chain_cons, flip, Linked] at hc
    simp [for_each_reverse_from, hc.1.2]
  | cons b r ih =>
    intro a acc fuel hc hh h0 hfuel
    obtain ⟨k, rfl⟩ : ∃ k, fuel = k + 1 := ⟨fuel - 1, by simp at hfuel; omega⟩
    rw [List.cons_append, List.chain_cons] at hc
    have hab : (h a).prev = b := hc.1.2
    have hb : b ≠ head := fun e => hh (by simp [e])
    have hb0 : b ≠ NULL := fun e => h0 (by simp [e])
    have := ih b (acc ++ [g b]) k hc.2 (fun m => hh (List.mem_cons_of_mem _ m))
      (fun m => h0 (List.mem_cons_of_mem _ m)) (by simp at hfuel ⊢; omega)
    simp [for_each_reverse_from, hab, hb, load_prev_ok hb0, this]

/-- A well-formed list read backwards is a chain of `prev` links. -/
theorem wf_reverse_chain {h : Heap} {head : Ptr} {es : List Ptr} (hwf : WellFormed h head es) :
    List.Chain (flip (Linked h)) head (es.reverse ++ [head]) := by
  have hc : List.Chain' (Linked h) (head :: (es ++ [head])) :=
    (links_iff_chain h head (es ++ [head])).1 hwf.2.2.2
  have hr : List.Chain' (flip (Linked h)) (head :: (es ++ [head])).reverse := by
    rw [List.chain'_reverse]; exact hc
  simpa using hr

theorem backward_of_wf {h : Heap} {head : Ptr} {es : List Ptr} (hwf : WellFormed h head es)
    {fuel : Nat} (hfuel : es.length + 1 ≤ fuel) : backward head fuel h = .ok es.reverse := by
  have hnd := hwf.2.2.1
  have := for_each_reverse_from_collect (fun p => p) h head es.reverse head [] fuel
    (wf_reverse_chain hwf) (by simpa using (List.nodup_cons.1 hnd).1)
    (by simpa using hwf.2.1) (by simpa using hfuel)
  simp only [List.map_id', List.nil_append] at this
  simp [backward, list_for_each_entry_reverse, load_prev_ok hwf.1, this]

/-- C14 (reverse iteration). On a well-formed list, within `N + 1` loop tests,
`list_for_each_entry` yields the entries `es` and `list_for_each_entry_reverse` yields
exactly `es` reversed. `head->next` is the first node of `es ++ [head]` and `head->prev` the
last node of `head :: es`: on a non-empty list they are the first and the last entry. -/
theorem backward_is_reverse (h : Heap) (head : Ptr) (es : List Ptr)
    (hwf : WellFormed h head es) :
    (∀ fuel, es.length + 1 ≤ fuel →
        forward head fuel h = .ok es ∧ backward head fuel h = .ok es.reverse) ∧
      (es ++ [head]).head? = some (h head).next ∧
      (head :: es).getLast? = some (h head).prev ∧
      (es ≠ [] → es.head? = some (h head).next ∧ es.getLast? = some (h head).prev) :=
  ⟨fun _ hf => ⟨forward_of_wf hwf hf, backward_of_wf hwf hf⟩, wf_next_head hwf,
    wf_prev_head hwf, fun hne => ⟨(wf_first_last hwf hne).1, (wf_first_last hwf hne).2.1⟩⟩

/-- Witness of C14 on the sample heap: the list `2, 3` anchored at `1`. -/
theorem backward_is_reverse_witness :
    WellFormed sample_heap 1 [2, 3] ∧
      forward 1 3 sample_heap = .ok [2, 3] ∧ backward 1 3 sample_heap = .ok [2, 3].reverse :=
  ⟨by decide, (backward_is_reverse sample_heap 1 [2, 3] (by decide)).1 3 (by decide)⟩

/-! ## Removal during plain iteration -/

theorem for_each_from_step {σ : Type} (body : Ptr → σ → Heap → Except Err (σ × Heap))
    (head : Ptr) (k : Nat) (pos : Ptr) (acc : σ) (h : Heap) (hne : pos ≠ head) :
    for_each_from body head (k + 1) pos acc h =
      (body pos acc h >>= fun r => load_next pos r.2 >>= fun nxt =>
        for_each_from body head k nxt r.1 r.2) := by
  simp [for_each_from, hne]

/-- With the cursor at `NULL` the plain loop with the removing body dereferences `NULL`. -/
theorem for_each_from_null (p : Ptr → Bool) {head : Ptr} (hh : head ≠ NULL) (k : Nat)
    (h : Heap) : for_each_from (del_body p) head (k + 1) NULL () h = .error .nullDeref := by
  rw [for_each_from_step _ _ _ _ _ _ (fun e => hh e.symm)]
  cases hp : p NULL
  · rw [del_body_false hp]; simp [load_next]
  · rw [del_body_true hp]; simp [list_del, load_prev]

/-- The plain loop at an entry that the body removes: the next loop test runs on `NULL`. -/
theorem plain_from_removed (p : Ptr → Bool) {h : Heap} {head pos : Ptr} {K rest : List Ptr}
    (hwf : WellFormed h head (K ++ pos :: rest)) (hp : p pos = true) (fuel : Nat) :
    ∃ err, for_each_from (del_body p) head fuel pos () h = .error err ∧
      (2 ≤ fuel → err = .nullDeref) := by
  obtain ⟨hdel, -⟩ := wf_del hwf
  have hpos0 : pos ≠ NULL := (wf_unlink hwf).1
  rcases fuel with _ | k
  · exact ⟨.outOfFuel, rfl, fun hf => absurd hf (by omega)⟩
  · rw [for_each_from_step _ _ _ _ _ _ (wf_entry_ne_head hwf), del_body_true hp, hdel]
    have hz : (list_del_heap pos h pos).next = NULL := by simp [list_del_heap]
    simp only [bind_ok, load_next_ok hpos0, hz]
    rcases k with _ | k
    · exact ⟨.outOfFuel, rfl, fun hf => absurd hf (by omega)⟩
    · exact ⟨.nullDeref, for_each_from_null p hwf.1 k _, fun _ => rfl⟩

/-- The plain loop with the removing body from an entry `pos` on, when some entry still to
come is removed. -/
theorem plain_from_del (p : Ptr → Bool) (head : Ptr) :
    ∀ (rest K : List Ptr) (pos : Ptr) (h : Heap) (fuel : Nat),
      WellFormed h head (K ++ pos :: rest) → (∃ e ∈ pos :: rest, p e = true) →
      ∃ err, for_each_from (del_body p) head fuel pos () h = .error err ∧
        (rest.length + 2 ≤ fuel → err = .nullDeref) := by
  intro rest
  induction rest with
  | nil =>
    intro K pos h fuel hwf hex
    have hp : p pos = true := by
      obtain ⟨e, he, hpe⟩ := hex
      simp only [List.mem_singleton] at he
      rw [← he]; exact hpe
    exact plain_from_removed p hwf hp fuel
  | cons e r ih =>
    intro K pos h fuel hwf hex
    cases hp : p pos
    · rcases fuel with _ | k
      · exact ⟨.outOfFuel, rfl, fun hf => absurd hf (by simp)⟩
      · have hn : (h pos).next = e := by
          have := (wf_neighbours hwf).1
          simpa using this.symm
        have hpos0 : pos ≠ NULL := (wf_unlink hwf).1
        have hwf2 : WellFormed h head ((K ++ [pos]) ++ e :: r) := by simpa using hwf
        have hex2 : ∃ x ∈ e :: r, p x = true := by
          obtain ⟨x, hx, hpx⟩ := hex
          rcases List.mem_cons.1 hx with rfl | hx
          · rw [hp] at hpx; exact absurd hpx (by simp)
          · exact ⟨x, hx, hpx⟩
        obtain ⟨err, hrun, hb⟩ := ih (K ++ [pos]) e h k hwf2 hex2
        refine ⟨err, ?_, fun hf => hb (by simp at hf ⊢; omega)⟩
        rw [for_each_from_step _ _ _ _ _ _ (wf_entry_ne_head hwf), del_body_false hp]
        simp only [bind_ok, load_next_ok hpos0, hn]
        exact hrun
    · obtain ⟨err, hrun, hb⟩ := plain_from_removed p hwf hp fuel
      exact ⟨err, hrun, fun hf => hb (by simp at hf; omega)⟩

/-- A whole plain `list_for_each_entry` pass with the removing body. -/
theorem plain_del_run (p : Ptr → Bool) {h : Heap} {head : Ptr} {es : List Ptr}
    (hwf : WellFormed h head es) (hex : ∃ e ∈ es, p e = true) (fuel : Nat) :
    ∃ err, list_for_each_entry (del_body p) head fuel () h = .error err ∧
      (es.length + 1 ≤ fuel → err = .nullDeref) ∧
      (∀ e r, es = e :: r → p e = true → 2 ≤ fuel → err = .nullDeref) := by
  rcases es with _ | ⟨e, r⟩
  · obtain ⟨x, hx, _⟩ := hex
    exact absurd hx (by simp)
  · have hn : (h head).next = e := by
      have := wf_next_head hwf
      simpa using this.symm
    have hwf2 : WellFormed h head ([] ++ e :: r) := by simpa using hwf
    obtain ⟨err, hrun, hb⟩ := plain_from_del p head r [] e h fuel hwf2 hex
    refine ⟨err, ?_, fun hf => hb (by simp at hf ⊢; omega), ?_⟩
    · simp only [list_for_each_entry, load_next_ok hwf.1, hn, bind_ok]
      exact hrun
    · intro e2 r2 heq hp hf
      obtain ⟨rfl, rfl⟩ := List.cons.inj heq
      obtain ⟨err2, hrun2, hb2⟩ := plain_from_removed p hwf2 hp fuel
      rw [hrun] at hrun2
      have : err = err2 := by injection hrun2
      rw [this]; exact hb2 hf

/-- C16 (removal during plain iteration). On a well-formed list with at least one entry,
`list_for_each_entry` with the body that calls `list_del` on the yielded entry never returns
a final state: the removal sets the entry's `next` to `NULL`, the cursor becomes `NULL`, and
from the second loop test on the run ends in the null-dereference error. The same holds for
a body that removes only the entries satisfying `p`, when some entry satisfies it, within
`N + 1` loop tests. Under `list_for_each_entry_safe` the same body completes. -/
theorem plain_iteration_del_fails :
    (∀ (h : Heap) (head e : Ptr) (es : List Ptr), WellFormed h head (e :: es) →
        (∀ fuel, 2 ≤ fuel →
          list_for_each_entry (del_body (fun _ => true)) head fuel () h = .error .nullDeref) ∧
        (∀ fuel r, list_for_each_entry (del_body (fun _ => true)) head fuel () h ≠ .ok r) ∧
        (∀ fuel, es.length + 2 ≤ fuel →
          ∃ h2, list_for_each_entry_safe (del_body (fun _ => true)) head fuel () h =
              .ok ((), h2) ∧ WellFormed h2 head [])) ∧
    (∀ (h : Heap) (head : Ptr) (es : List Ptr) (p : Ptr → Bool), WellFormed h head es →
        (∃ e ∈ es, p e = true) →
        (∀ fuel, es.length + 1 ≤ fuel →
          list_for_each_entry (del_body p) head fuel () h = .error .nullDeref) ∧
        (∀ fuel r, list_for_each_entry (del_body p) head fuel () h ≠ .ok r) ∧
        (∀ fuel, es.length + 1 ≤ fuel →
          ∃ h2, list_for_each_entry_safe (del_body p) head fuel () h = .ok ((), h2) ∧
            WellFormed h2 head (es.filter (fun e => !p e)))) := by
  refine ⟨?_, ?_⟩
  · intro h head e es hwf
    have hex : ∃ x ∈ e :: es, (fun _ : Ptr => true) x = true := ⟨e, by simp, rfl⟩
    refine ⟨fun fuel hf => ?_, fun fuel r => ?_, fun fuel hf => ?_⟩
    · obtain ⟨err, hrun, _, hb⟩ := plain_del_run (fun _ => true) hwf hex fuel
      rw [hrun, hb e es rfl rfl hf]
    · obtain ⟨err, hrun, _, _⟩ := plain_del_run (fun _ => true) hwf hex fuel
      rw [hrun]; simp
    · obtain ⟨h2, hrun, hw⟩ := @safe_del_run (fun _ => true) _ _ _ hwf fuel
        (by simp at hf ⊢; omega)
      exact ⟨h2, by simp [list_for_each_entry_safe, hrun], by simpa using hw⟩
  · intro h head es p hwf hex
    refine ⟨fun fuel hf => ?_, fun fuel r => ?_, fun fuel hf => ?_⟩
    · obtain ⟨err, hrun, hb, _⟩ := plain_del_run p hwf hex fuel
      rw [hrun, hb hf]
    · obtain ⟨err, hrun, _, _⟩ := plain_del_run p hwf hex fuel
      rw [hrun]; simp
    · obtain ⟨h2, hrun, hw⟩ := safe_del_run p hwf hf
      exact ⟨h2, by simp [list_for_each_entry_safe, hrun], hw⟩

/-- Witness of C16 on the sample heap: the list `2, 3` anchored at `1`. -/
theorem plain_iteration_del_fails_witness :
    WellFormed sample_heap 1 (2 :: [3]) ∧
      list_for_each_entry (del_body (fun _ => true)) 1 2 () sample_heap = .error .nullDeref ∧
      ∃ h2, list_for_each_entry_safe (del_body (fun _ => true)) 1 3 () sample_heap =
          .ok ((), h2) ∧ WellFormed h2 1 [] := by
  obtain ⟨a, _, c⟩ := plain_iteration_del_fails.1 sample_heap 1 2 [3] (by decide)
  exact ⟨by decide, a 2 (by decide), c 3 (by decide)⟩

/-! ## Iteration is finite and exact -/

/-- With at most `N` loop tests the collecting loop over `N` remaining entries runs out of
fuel. -/
theorem for_each_from_short {α : Type} (g : Ptr → α) (h : Heap) (head : Ptr) :
    ∀ (rest : List Ptr) (a : Ptr) (acc : List α) (fuel : Nat),
      Links h a (rest ++ [head]) → head ∉ rest → NULL ∉ rest → fuel ≤ rest.length →
      for_each_from (fun pos (acc : List α) h => .ok (acc ++ [g pos], h)) head fuel
        (h a).next acc h = .error .outOfFuel := by
  intro rest
  induction rest with
  | nil =>
    intro a acc fuel _ _ _ hfuel
    obtain rfl : fuel = 0 := by simpa using hfuel
    rfl
  | cons b r ih =>
    intro a acc fuel hc hh h0 hfuel
    rcases fuel with _ | k
    · rfl
    · simp only [List.cons_append, Links] at hc
      have hb : b ≠ head := fun e => hh (by simp [e])
      have hb0 : b ≠ NULL := fun e => h0 (by simp [e])
      have := ih b (acc ++ [g b]) k hc.2 (fun m => hh (List.mem_cons_of_mem _ m))
        (fun m => h0 (List.mem_cons_of_mem _ m)) (by simp at hfuel; omega)
      simp [for_each_from, hc.1.1, hb, load_next_ok hb0, this]

/-- The demo's `print` on a well-formed `list_header` outputs the values of the entries. -/
theorem print_of_wf {s : Demo} {es : List Ptr} (hwf : WellFormed s.heap list_header es)
    {fuel : Nat} (hfuel : es.length + 1 ≤ fuel) : print fuel s = .ok (es.map s.value) := by
  have hnd := hwf.2.2.1
  rcases es with _ | ⟨e, r⟩
  · simp [print, wf_list_empty hwf]
  · have := for_each_from_collect s.value s.heap list_header (e :: r) list_header [] fuel
      hwf.2.2.2 (List.nodup_cons.1 hnd).1 hwf.2.1 hfuel
    simp only [List.nil_append] at this
    simp [print, wf_list_empty hwf, list_for_each_entry, load_next_ok hwf.1, this]

/-- C19 (iteration is finite and exact). On a well-formed list with `N` entries forward
iteration returns, for every budget of at least `N + 1` loop tests, exactly the entries,
which are pairwise distinct and do not contain `head`; with `N` loop tests or fewer it runs
out of fuel. A list with `head->next == head` has no entry, and iteration then yields
nothing. The demo's `print` outputs the value of each entry in the same order. -/
theorem forward_total :
    (∀ (h : Heap) (head : Ptr) (es : List Ptr), WellFormed h head es →
        (∀ fuel, es.length + 1 ≤ fuel → forward head fuel h = .ok es) ∧
        (∀ fuel, fuel ≤ es.length → forward head fuel h = .error .outOfFuel) ∧
        es.Nodup ∧ head ∉ es ∧ ((h head).next = head → es = [])) ∧
    (∀ (h : Heap) (head : Ptr), head ≠ NULL → (h head).next = head →
        ∀ fuel, 1 ≤ fuel → forward head fuel h = .ok []) ∧
    (∀ (s : Demo) (es : List Ptr) (fuel : Nat), WellFormed s.heap list_header es →
        es.length + 1 ≤ fuel → print fuel s = .ok (es.map s.value)) := by
  refine ⟨?_, ?_, fun s es fuel hwf hf => print_of_wf hwf hf⟩
  · intro h head es hwf
    have hnd := List.nodup_cons.1 hwf.2.2.1
    refine ⟨fun fuel hf => forward_of_wf hwf hf, fun fuel hf => ?_, hnd.2, hnd.1,
      (wf_next_eq_head_iff hwf).1⟩
    have := for_each_from_short (fun p => p) h head es head [] fuel hwf.2.2.2 hnd.1 hwf.2.1 hf
    simp [forward, list_for_each_entry, load_next_ok hwf.1, this]
  · intro h head hh hn fuel hf
    obtain ⟨k, rfl⟩ : ∃ k, fuel = k + 1 := ⟨fuel - 1, by omega⟩
    simp [forward, list_for_each_entry, load_next_ok hh, hn, for_each_from]

/-- Witness of C19 on the sample heap: the list `2, 3` anchored at `1` and the empty list
anchored at `20`. -/
theorem forward_total_witness :
    (WellFormed sample_heap 1 [2, 3] ∧ forward 1 3 sample_heap = .ok [2, 3] ∧
      forward 1 2 sample_heap = .error .outOfFuel) ∧
    ((sample_heap 20).next = 20 ∧ forward 20 1 sample_heap = .ok []) ∧
    (WellFormed Demo.init.heap list_header [] ∧
      print 1 Demo.init = .ok (([] : List Ptr).map Demo.init.value)) := by
  obtain ⟨a, b, _⟩ := forward_total.1 sample_heap 1 [2, 3] (by decide)
  exact ⟨⟨by decide, a 3 (by decide), b 2 (by decide)⟩,
    ⟨by decide, forward_total.2.1 sample_heap 20 (by decide) (by decide) 1 (by decide)⟩,
    ⟨by decide, forward_total.2.2 Demo.init [] 1 (by decide) (by decide)⟩⟩

/-! ## Frame of insertion and of plain splice -/

/-- C18 (insertion writes exactly four pointers). For a well-formed list, any of its nodes
`anchor` and a non-null node `x` outside it, `list_add(x, anchor)` sets `anchor->next = x`,
`x->next` to the old `anchor->next`, `x->prev = anchor` and the `prev` of the old
`anchor->next` to `x`; every other `next` and every other `prev` field of the heap is
unchanged, in particular `anchor->prev` and the `next` of the old successor unless `anchor`
is a self-loop. `list_add_tail(x, anchor)` is the mirror image with `anchor->prev`. -/
theorem list_add_writes_four (h : Heap) (head anchor x : Ptr) (es : List Ptr)
    (hwf : WellFormed h head es) (ha : anchor ∈ head :: es) (hx0 : x ≠ NULL)
    (hx : x ∉ head :: es) :
    (∃ h2, list_add x anchor h = .ok h2 ∧
      (h2 anchor).next = x ∧ (h2 x).next = (h anchor).next ∧ (h2 x).prev = anchor ∧
      (h2 (h anchor).next).prev = x ∧
      (∀ y, y ≠ anchor → y ≠ x → (h2 y).next = (h y).next) ∧
      (∀ y, y ≠ (h anchor).next → y ≠ x → (h2 y).prev = (h y).prev) ∧
      ((h anchor).next ≠ anchor → (h2 anchor).prev = (h anchor).prev ∧
        (h2 (h anchor).next).next = (h (h anchor).next).next)) ∧
    (∃ h3, list_add_tail x anchor h = .ok h3 ∧
      (h3 anchor).prev = x ∧ (h3 x).prev = (h anchor).prev ∧ (h3 x).next = anchor ∧
      (h3 (h anchor).prev).next = x ∧
      (∀ y, y ≠ anchor → y ≠ x → (h3 y).prev = (h y).prev) ∧
      (∀ y, y ≠ (h anchor).prev → y ≠ x → (h3 y).next = (h y).next) ∧
      ((h anchor).prev ≠ anchor → (h3 anchor).next = (h anchor).next ∧
        (h3 (h anchor).prev).prev = (h (h anchor).prev).prev)) := by
  obtain ⟨ha0, hp0, hn0, _, _⟩ := wf_member_links hwf ha
  obtain ⟨hnm, hpm⟩ := wf_closed hwf anchor ha
  have hxa : x ≠ anchor := fun e => hx (e ▸ ha)
  have hax : anchor ≠ x := fun e => hxa e.symm
  have hxn : x ≠ (h anchor).next := fun e => hx (e ▸ hnm)
  have hnx : (h anchor).next ≠ x := fun e => hxn e.symm
  have hxp : x ≠ (h anchor).prev := fun e => hx (e ▸ hpm)
  have hpx : (h anchor).prev ≠ x := fun e => hxp e.symm
  refine ⟨⟨add_heap x anchor (h anchor).next h, ?_, ?_, ?_, ?_, ?_, ?_, ?_, ?_⟩,
    ⟨add_heap x (h anchor).prev anchor h, ?_, ?_, ?_, ?_, ?_, ?_, ?_, ?_⟩⟩
  · simp [list_add, load_next_ok ha0, list_add_raw_ok hx0 ha0 hn0]
  · simp [add_heap]
  · simp [add_heap, hxa]
  · simp [add_heap]
  · simp [add_heap, hnx]
  · intro y h1 h2; simp [add_heap, h1, h2]
  · intro y h1 h2; simp [add_heap, h1, h2]
  · intro hne
    have hne2 : anchor ≠ (h anchor).next := fun e => hne e.symm
    simp [add_heap, hax, hne, hne2, hnx]
  · simp [list_add_tail, load_prev_ok ha0, list_add_raw_ok hx0 hp0 ha0]
  · simp [add_heap, hax]
  · simp [add_heap]
  · simp [add_heap, hxp]
  · simp [add_heap]
  · intro y h1 h2; simp [add_heap, h1, h2]
  · intro y h1 h2; simp [add_heap, h1, h2]
  · intro hne
    have hne2 : anchor ≠ (h anchor).prev := fun e => hne e.symm
    simp [add_heap, hax, hne, hne2, hpx]

/-- Witness of C18 on the sample heap: node `4` inserted at entry `2` of the list `2, 3`
anchored at `1`. -/
theorem list_add_writes_four_witness :
    WellFormed sample_heap 1 [2, 3] ∧
      (∃ h2, list_add 4 2 sample_heap = .ok h2 ∧ (h2 2).next = 4 ∧
        (h2 4).next = (sample_heap 2).next ∧ (h2 4).prev = 2 ∧
        (h2 (sample_heap 2).next).prev = 4) ∧
      (∃ h3, list_add_tail 4 2 sample_heap = .ok h3 ∧ (h3 2).prev = 4 ∧
        (h3 4).prev = (sample_heap 2).prev ∧ (h3 4).next = 2 ∧
        (h3 (sample_heap 2).prev).next = 4) := by
  obtain ⟨⟨h2, r2, a1, a2, a3, a4, _⟩, ⟨h3, r3, b1, b2, b3, b4, _⟩⟩ :=
    list_add_writes_four sample_heap 1 2 4 [2, 3] (by decide) (by decide) (by decide)
      (by decide)
  exact ⟨by decide, ⟨h2, r2, a1, a2, a3, a4⟩, ⟨h3, r3, b1, b2, b3, b4⟩⟩

/-- A head whose successor does not point back at it anchors no well-formed list. -/
theorem not_wf_of_stale {h : Heap} {list : Ptr} (hs : (h (h list).next).prev ≠ list)
    (es : List Ptr) : ¬ WellFormed h list es := fun hwf =>
  hs (wf_member_links hwf (List.mem_cons_self _ _)).2.2.2.2

/-- The source head and the boundary entries after `__list_splice(list, p, n)`. -/
theorem splice_heap_source {h : Heap} {list p n : Ptr}
    (hlf : list ≠ (h list).next) (hll : list ≠ (h list).prev) (hlp : list ≠ p)
    (hln : list ≠ n) (hfn : (h list).next ≠ n) (hpl : p ≠ list) (hnl : n ≠ list) :
    (splice_heap (h list).next (h list).prev p n h list).next = (h list).next ∧
      (splice_heap (h list).next (h list).prev p n h list).prev = (h list).prev ∧
      (splice_heap (h list).next (h list).prev p n h (h list).next).prev = p ∧
      (splice_heap (h list).next (h list).prev p n h (h list).prev).next = n ∧
      (splice_heap (h list).next (h list).prev p n h
        (splice_heap (h list).next (h list).prev p n h list).next).prev ≠ list ∧
      (splice_heap (h list).next (h list).prev p n h
        (splice_heap (h list).next (h list).prev p n h list).prev).next ≠ list := by
  have e1 : (splice_heap (h list).next (h list).prev p n h list).next = (h list).next := by
    simp [splice_heap, hll, hlp]
  have e2 : (splice_heap (h list).next (h list).prev p n h list).prev = (h list).prev := by
    simp [splice_heap, hln, hlf]
  have e3 : (splice_heap (h list).next (h list).prev p n h (h list).next).prev = p := by
    simp [splice_heap, hfn]
  have e4 : (splice_heap (h list).next (h list).prev p n h (h list).prev).next = n := by
    simp [splice_heap]
  refine ⟨e1, e2, e3, e4, ?_, ?_⟩
  · rw [e1, e3]; exact hpl
  · rw [e2, e4]; exact hnl

/-- After `__list_splice(list, p, n)` with `p`, `n` nodes of the target list, the source
head still points at the moved entries, which no longer point back at it. -/
theorem splice_stale {h : Heap} {head list p n : Ptr} {as bs : List Ptr}
    (hB : WellFormed h list bs) (hne : bs ≠ [])
    (hdis : ∀ a ∈ head :: as, a ∉ list :: bs) (hp : p ∈ head :: as) (hn : n ∈ head :: as) :
    (splice_heap (h list).next (h list).prev p n h list).next = (h list).next ∧
      (splice_heap (h list).next (h list).prev p n h list).prev = (h list).prev ∧
      bs.head? = some (splice_heap (h list).next (h list).prev p n h list).next ∧
      bs.getLast? = some (splice_heap (h list).next (h list).prev p n h list).prev ∧
      list_empty list (splice_heap (h list).next (h list).prev p n h) = .ok false ∧
      (splice_heap (h list).next (h list).prev p n h
        (splice_heap (h list).next (h list).prev p n h list).next).prev = p ∧
      (splice_heap (h list).next (h list).prev p n h
        (splice_heap (h list).next (h list).prev p n h list).prev).next = n ∧
      (splice_heap (h list).next (h list).prev p n h
        (splice_heap (h list).next (h list).prev p n h list).next).prev ≠ list ∧
      (splice_heap (h list).next (h list).prev p n h
        (splice_heap (h list).next (h list).prev p n h list).prev).next ≠ list ∧
      ∀ es, ¬ WellFormed (splice_heap (h list).next (h list).prev p n h) list es := by
  obtain ⟨hf, hl, hfne, hlne⟩ := wf_first_last hB hne
  have hfm : (h list).next ∈ list :: bs := List.mem_cons_of_mem _ (List.mem_of_mem_head? hf)
  have hlp : list ≠ p := fun e => hdis p hp (by simp [e])
  have hln : list ≠ n := fun e => hdis n hn (by simp [e])
  have hfn : (h list).next ≠ n := fun e => hdis n hn (e ▸ hfm)
  obtain ⟨e1, e2, e3, e4, e5, e6⟩ := @splice_heap_source h list p n (fun e => hfne e.symm)
    (fun e => hlne e.symm) hlp hln hfn (fun e => hlp e.symm) (fun e => hln e.symm)
  refine ⟨e1, e2, by rw [e1]; exact hf, by rw [e2]; exact hl, ?_, ?_, ?_, e5, e6,
    not_wf_of_stale e5⟩
  · rw [list_empty_ok hB.1, e1]; simp [hfne]
  · rw [e1]; exact e3
  · rw [e2]; exact e4

/-- C20 (plain splice leaves the source head stale). For well-formed lists with disjoint
nodes and a non-empty source `bs` anchored at `list`, `list_splice(list, head)` and
`list_splice_tail(list, head)` leave `list->next` and `list->prev` as they were: they are
still the first and the last moved entry and `list_empty(list)` is still false, while the
first entry's `prev` and the last entry's `next` now point into the target list and not to
`list`, so `list` anchors no well-formed list. After the `_init` variants `list` anchors a
well-formed empty list. -/
theorem plain_splice_source_stale (h : Heap) (head list : Ptr) (as bs : List Ptr)
    (hA : WellFormed h head as) (hB : WellFormed h list bs) (hne : bs ≠ [])
    (hdis : ∀ a ∈ head :: as, a ∉ list :: bs) :
    (∃ h2, list_splice list head h = .ok h2 ∧
      (h2 list).next = (h list).next ∧ (h2 list).prev = (h list).prev ∧
      bs.head? = some (h2 list).next ∧ bs.getLast? = some (h2 list).prev ∧
      list_empty list h2 = .ok false ∧
      (h2 (h2 list).next).prev = head ∧ (h2 (h2 list).prev).next = (h head).next ∧
      (h2 (h2 list).next).prev ≠ list ∧ (h2 (h2 list).prev).next ≠ list ∧
      (∀ es, ¬ WellFormed h2 list es) ∧ WellFormed h2 head (bs ++ as)) ∧
    (∃ h3, list_splice_tail list head h = .ok h3 ∧
      (h3 list).next = (h list).next ∧ (h3 list).prev = (h list).prev ∧
      bs.head? = some (h3 list).next ∧ bs.getLast? = some (h3 list).prev ∧
      list_empty list h3 = .ok false ∧
      (h3 (h3 list).next).prev = (h head).prev ∧ (h3 (h3 list).prev).next = head ∧
      (h3 (h3 list).next).prev ≠ list ∧ (h3 (h3 list).prev).next ≠ list ∧
      (∀ es, ¬ WellFormed h3 list es) ∧ WellFormed h3 head (as ++ bs)) ∧
    (∃ h4, list_splice_init list head h = .ok h4 ∧ WellFormed h4 list [] ∧
      list_empty list h4 = .ok true) ∧
    (∃ h5, list_splice_tail_init list head h = .ok h5 ∧ WellFormed h5 list [] ∧
      list_empty list h5 = .ok true) := by
  obtain ⟨hemp, hr1, hw1, hr2, hw2⟩ := wf_splice hA hB hne hdis
  have hhm : head ∈ head :: as := List.mem_cons_self _ _
  obtain ⟨hnm, hpm⟩ := wf_closed hA head hhm
  obtain ⟨a1, a2, a3, a4, a5, a6, a7, a8, a9, a10⟩ := splice_stale hB hne hdis hhm hnm
  obtain ⟨b1, b2, b3, b4, b5, b6, b7, b8, b9, b10⟩ := splice_stale hB hne hdis hpm hhm
  have hl0 := hB.1
  have hlA : list ∉ head :: as := fun m => hdis list m (by simp)
  have hlB : list ∉ bs := (List.nodup_cons.1 hB.2.2.1).1
  have hnot1 : list ∉ head :: (bs ++ as) := by
    simp only [List.mem_cons, List.mem_append, not_or] at hlA hlB ⊢
    tauto
  have hnot2 : list ∉ head :: (as ++ bs) := by
    simp only [List.mem_cons, List.mem_append, not_or] at hlA hlB ⊢
    tauto
  obtain ⟨i1, _, _, i4, i5, _, _⟩ := init_beside hw1 hl0 hnot1
  obtain ⟨j1, _, _, j4, j5, _, _⟩ := init_beside hw2 hl0 hnot2
  refine ⟨⟨splice_heap (h list).next (h list).prev head (h head).next h, ?_,
      a1, a2, a3, a4, a5, a6, a7, a8, a9, a10, hw1⟩,
    ⟨splice_heap (h list).next (h list).prev (h head).prev head h, ?_,
      b1, b2, b3, b4, b5, b6, b7, b8, b9, b10, hw2⟩,
    ⟨_, ?_, i5, i4⟩, ⟨_, ?_, j5, j4⟩⟩
  · simp [list_splice, hemp, load_next_ok hA.1, hr1]
  · simp [list_splice_tail, hemp, load_prev_ok hA.1, hr2]
  · simp [list_splice_init, hemp, load_next_ok hA.1, hr1, i1]
  · simp [list_splice_tail_init, hemp, load_prev_ok hA.1, hr2, j1]

/-- Witness of C20 on the sample heap: the list `11, 12` anchored at `10` is spliced into
the list `2, 3` anchored at `1`. -/
theorem plain_splice_source_stale_witness :
    WellFormed sample_heap 1 [2, 3] ∧ WellFormed sample_heap 10 [11, 12] ∧
      (∃ h2, list_splice 10 1 sample_heap = .ok h2 ∧ (h2 10).next = (sample_heap 10).next ∧
        (h2 10).prev = (sample_heap 10).prev ∧ list_empty 10 h2 = .ok false ∧
        (h2 (h2 10).next).prev ≠ 10 ∧ (h2 (h2 10).prev).next ≠ 10) ∧
      (∃ h3, list_splice_tail 10 1 sample_heap = .ok h3 ∧
        (h3 10).next = (sample_heap 10).next ∧ (h3 10).prev = (sample_heap 10).prev ∧
        list_empty 10 h3 = .ok false ∧
        (h3 (h3 10).next).prev ≠ 10 ∧ (h3 (h3 10).prev).next ≠ 10) := by
  obtain ⟨⟨h2, r2, a1, a2, _, _, a5, _, _, a8, a9, _⟩,
      ⟨h3, r3, b1, b2, _, _, b5, _, _, b8, b9, _⟩, _, _⟩ :=
    plain_splice_source_stale sample_heap 1 10 [2, 3] [11, 12] (by decide) (by decide)
      (by decide) (by decide)
  exact ⟨by decide, by decide, ⟨h2, r2, a1, a2, a5, a8, a9⟩, ⟨h3, r3, b1, b2, b5, b8, b9⟩⟩

/-! ## Every operation on well-formed lists -/

/-- Insertion after or before any node of a well-formed list. -/
theorem wf_add_at {h : Heap} {head anchor x : Ptr} {es : List Ptr}
    (hwf : WellFormed h head es) (ha : anchor ∈ head :: es) (hx0 : x ≠ NULL)
    (hx : x ∉ head :: es) :
    ∃ h2 h3 es2 es3, list_add x anchor h = .ok h2 ∧ WellFormed h2 head es2 ∧
      list_add_tail x anchor h = .ok h3 ∧ WellFormed h3 head es3 ∧
      (∀ y, y ∈ head :: es2 ↔ y = x ∨ y ∈ head :: es) ∧
      (∀ y, y ∈ head :: es3 ↔ y = x ∨ y ∈ head :: es) := by
  rcases List.mem_cons.1 ha with rfl | hm
  · obtain ⟨a1, a2⟩ := wf_add hwf hx0 hx
    obtain ⟨b1, b2⟩ := wf_add_tail hwf hx0 hx
    refine ⟨_, _, x :: es, es ++ [x], a1, a2, b1, b2, ?_, ?_⟩ <;> intro y <;>
      simp only [List.mem_cons, List.mem_append, List.mem_singleton] <;> tauto
  · obtain ⟨l1, l2, rfl⟩ := List.append_of_mem hm
    have hr := wf_rotate hwf
    have hx2 : x ∉ anchor :: (l2 ++ head :: l1) := by
      simp only [List.mem_cons, List.mem_append, not_or] at hx ⊢
      tauto
    obtain ⟨a1, a2⟩ := wf_add hr hx0 hx2
    obtain ⟨b1, b2⟩ := wf_add_tail hr hx0 hx2
    have a3 := @wf_rotate _ anchor head (x :: l2) l1 (by simpa using a2)
    have b3 := @wf_rotate _ anchor head l2 (l1 ++ [x]) (by simpa using b2)
    refine ⟨_, _, l1 ++ anchor :: x :: l2, (l1 ++ [x]) ++ anchor :: l2, a1, a3, b1, b3,
      ?_, ?_⟩ <;> intro y <;>
      simp only [List.mem_cons, List.mem_append, List.mem_singleton] <;> tauto

/-- Heap after `list_del_init(x)` on an entry of a well-formed list. -/
theorem wf_del_init {h : Heap} {head x : Ptr} {l1 l2 : List Ptr}
    (hwf : WellFormed h head (l1 ++ x :: l2)) :
    ∃ h2, list_del_init x h = .ok h2 ∧ WellFormed h2 head (l1 ++ l2) ∧ WellFormed h2 x [] ∧
      (h2 x).next = x ∧ (h2 x).prev = x := by
  obtain ⟨hx0, hp0, hn0, _, _, hx, hwf2⟩ := wf_unlink hwf
  obtain ⟨i1, i2, i3, _, i5, i6, _⟩ := init_beside hwf2 hx0 hx
  refine ⟨_, ?_, i6, i5, i2, i3⟩
  simp [list_del_init, load_prev_ok hx0, load_next_ok hx0, list_del_raw_ok hp0 hn0, i1]

/-- Moving an entry to the front or the back of its own list. -/
theorem wf_move_same {h : Heap} {head x : Ptr} {l1 l2 : List Ptr}
    (hwf : WellFormed h head (l1 ++ x :: l2)) :
    ∃ h2 h3, list_move x head h = .ok h2 ∧ WellFormed h2 head (x :: (l1 ++ l2)) ∧
      list_move_tail x head h = .ok h3 ∧ WellFormed h3 head (l1 ++ l2 ++ [x]) := by
  obtain ⟨hx0, _, _, _, _, hx, _⟩ := wf_unlink hwf
  obtain ⟨hdel, hwd⟩ := wf_del hwf
  obtain ⟨m1, m2⟩ := move_eq_del_add h x head (wf_entry_ne_head hwf).symm
  obtain ⟨a1, a2⟩ := wf_add hwd hx0 hx
  obtain ⟨b1, b2⟩ := wf_add_tail hwd hx0 hx
  exact ⟨_, _, by rw [m1, hdel]; exact a1, a2, by rw [m2, hdel]; exact b1, b2⟩

/-- Moving an entry of one list to the front or the back of a disjoint list. -/
theorem wf_move_other {h : Heap} {head head2 x : Ptr} {es l1 l2 : List Ptr}
    (hA : WellFormed h head es) (hB : WellFormed h head2 (l1 ++ x :: l2))
    (hdis : ∀ a ∈ head :: es, a ∉ head2 :: (l1 ++ x :: l2)) :
    ∃ h2 h3, list_move x head h = .ok h2 ∧ WellFormed h2 head (x :: es) ∧
      WellFormed h2 head2 (l1 ++ l2) ∧
      list_move_tail x head h = .ok h3 ∧ WellFormed h3 head (es ++ [x]) ∧
      WellFormed h3 head2 (l1 ++ l2) := by
  obtain ⟨hx0, _, _, _, _, hx, _⟩ := wf_unlink hB
  obtain ⟨hdel, hwd⟩ := wf_del hB
  have hxB : x ∈ head2 :: (l1 ++ x :: l2) := by simp
  have hxA : x ∉ head :: es := fun m => hdis x m hxB
  have hne : head ≠ x := fun e => hxA (by simp [e])
  obtain ⟨m1, m2⟩ := move_eq_del_add h x head hne
  have hAd := wf_del_other hA hB hdis
  obtain ⟨a1, a2⟩ := wf_add hAd hx0 hxA
  obtain ⟨b1, b2⟩ := wf_add_tail hAd hx0 hxA
  have hdis2 : ∀ a ∈ head :: es, a ∉ head2 :: (l1 ++ l2) := by
    intro a ha m
    apply hdis a ha
    simp only [List.mem_cons, List.mem_append] at m ⊢
    tauto
  have hhm : head ∈ head :: es := by simp
  refine ⟨_, _, by rw [m1, hdel]; exact a1, a2, ?_, by rw [m2, hdel]; exact b1, b2, ?_⟩
  · exact wf_add_other hwd hx hhm (wf_closed hAd head hhm).1 hdis2
  · exact wf_add_other hwd hx (wf_closed hAd head hhm).2 hhm hdis2

/-- The four splices of a well-formed source, empty or not, into a disjoint target. -/
theorem wf_splice_any {h : Heap} {head list : Ptr} {as bs : List Ptr}
    (hA : WellFormed h head as) (hB : WellFormed h list bs)
    (hdis : ∀ a ∈ head :: as, a ∉ list :: bs) :
    ∃ h1 h2 h3 h4, list_splice list head h = .ok h1 ∧ WellFormed h1 head (bs ++ as) ∧
      list_splice_tail list head h = .ok h2 ∧ WellFormed h2 head (as ++ bs) ∧
      list_splice_init list head h = .ok h3 ∧ WellFormed h3 head (bs ++ as) ∧
      WellFormed h3 list [] ∧
      list_splice_tail_init list head h = .ok h4 ∧ WellFormed h4 head (as ++ bs) ∧
      WellFormed h4 list [] := by
  have hlA : list ∉ head :: as := fun m => hdis list m (by simp)
  rcases bs with _ | ⟨b, bs⟩
  · obtain ⟨_, _, e3, _⟩ := empty_beside hA hB hlA
    obtain ⟨n1, n2, n3, n4⟩ := splice_of_empty e3 head
    exact ⟨h, h, h, h, n1, hA, n2, by simpa using hA, n3, hA, hB, n4, by simpa using hA, hB⟩
  · obtain ⟨hemp, hr1, hw1, hr2, hw2⟩ := wf_splice hA hB (List.cons_ne_nil b bs) hdis
    have hl0 := hB.1
    have hlB : list ∉ b :: bs := (List.nodup_cons.1 hB.2.2.1).1
    have hnot1 : list ∉ head :: (b :: bs ++ as) := by
      simp only [List.mem_cons, List.mem_append, not_or] at hlA hlB ⊢
      tauto
    have hnot2 : list ∉ head :: (as ++ b :: bs) := by
      simp only [List.mem_cons, List.mem_append, not_or] at hlA hlB ⊢
      tauto
    obtain ⟨i1, _, _, _, i5, i6, _⟩ := init_beside hw1 hl0 hnot1
    obtain ⟨j1, _, _, _, j5, j6, _⟩ := init_beside hw2 hl0 hnot2
    refine ⟨splice_heap (h list).next (h list).prev head (h head).next h,
      splice_heap (h list).next (h list).prev (h head).prev head h, _, _,
      ?_, hw1, ?_, hw2, ?_, i6, i5, ?_, j6, j5⟩
    · simp [list_splice, hemp, load_next_ok hA.1, hr1]
    · simp [list_splice_tail, hemp, load_prev_ok hA.1, hr2]
    · simp [list_splice_init, hemp, load_next_ok hA.1, hr1, i1]
    · simp [list_splice_tail_init, hemp, load_prev_ok hA.1, hr2, j1]

/-! ## Ring consistency -/

theorem links_map_next (h : Heap) (z : Ptr) :
    ∀ (l : List Ptr) (a : Ptr), Links h a (l ++ [z]) →
      (a :: l).map (fun y => (h y).next) = l ++ [z] := by
  intro l
  induction l with
  | nil => intro a hc; simp only [List.nil_append, Links] at hc; simp [hc.1.1]
  | cons b l ih =>
    intro a hc
    simp only [List.cons_append, Links] at hc
    have := ih b hc.2
    simp only [List.map_cons, List.cons_append, List.cons.injEq] at this ⊢
    exact ⟨hc.1.1, this⟩

theorem links_of_map_next (h : Heap) (z : Ptr) :
    ∀ (l : List Ptr) (a : Ptr), (a :: l).map (fun y => (h y).next) = l ++ [z] →
      (∀ y ∈ a :: l, (h (h y).next).prev = y) → Links h a (l ++ [z]) := by
  intro l
  induction l with
  | nil =>
    intro a hm hb
    simp only [List.map_cons, List.map_nil, List.nil_append, List.cons.injEq, and_true] at hm
    have := hb a (by simp)
    rw [hm] at this
    simpa [Links, Linked] using ⟨hm, this⟩
  | cons b l ih =>
    intro a hm hb
    simp only [List.map_cons, List.cons_append, List.cons.injEq] at hm
    have hab := hb a (by simp)
    rw [hm.1] at hab
    refine ⟨⟨hm.1, hab⟩, ih b ?_ (fun y hy => hb y (List.mem_cons_of_mem _ hy))⟩
    simp only [List.map_cons, List.cons.injEq]
    exact hm.2

/-- Consistency at `head` with cycle `head :: es` is well-formedness with entries `es`. -/
theorem consistentWith_iff (h : Heap) (head : Ptr) (es : List Ptr) :
    ConsistentWith h head es ↔ WellFormed h head es := by
  constructor
  · rintro ⟨h0, hes, hnd, hm, hb⟩
    exact ⟨h0, hes, hnd, links_of_map_next h head es head hm (fun y hy => (hb y hy).1)⟩
  · intro hwf
    refine ⟨hwf.1, hwf.2.1, hwf.2.2.1, links_map_next h head es head hwf.2.2.2, ?_⟩
    intro y hy
    obtain ⟨_, _, _, e1, e2⟩ := wf_member_links hwf hy
    exact ⟨e2, e1⟩

theorem consistent_of_wf {h : Heap} {head : Ptr} {es : List Ptr} (hwf : WellFormed h head es) :
    Consistent h head := ⟨es, (consistentWith_iff h head es).2 hwf⟩

/-- C17 (ring consistency is preserved). From a state consistent at `head` with cycle
`head :: es`: `list_add` and `list_add_tail` of a non-null node not on the cycle, at any
node of the cycle; `list_del` and `list_del_init` of an entry; `list_move` and
`list_move_tail` to `head` of an entry of this cycle or of a disjoint consistent cycle; and
the four splice variants of a disjoint consistent source; all succeed and return a state
that is again consistent at `head`. -/
theorem consistency_preserved :
    (∀ (h : Heap) (head anchor x : Ptr) (es : List Ptr), ConsistentWith h head es →
        anchor ∈ head :: es → x ≠ NULL → x ∉ head :: es →
        ∃ h2 h3, list_add x anchor h = .ok h2 ∧ Consistent h2 head ∧
          list_add_tail x anchor h = .ok h3 ∧ Consistent h3 head) ∧
    (∀ (h : Heap) (head x : Ptr) (es : List Ptr), ConsistentWith h head es → x ∈ es →
        ∃ h2 h3, list_del x h = .ok h2 ∧ Consistent h2 head ∧
          list_del_init x h = .ok h3 ∧ Consistent h3 head) ∧
    (∀ (h : Heap) (head x : Ptr) (es : List Ptr), ConsistentWith h head es → x ∈ es →
        ∃ h2 h3, list_move x head h = .ok h2 ∧ Consistent h2 head ∧
          list_move_tail x head h = .ok h3 ∧ Consistent h3 head) ∧
    (∀ (h : Heap) (head head2 x : Ptr) (es es2 : List Ptr), ConsistentWith h head es →
        ConsistentWith h head2 es2 → x ∈ es2 → (∀ a ∈ head :: es, a ∉ head2 :: es2) →
        ∃ h2 h3, list_move x head h = .ok h2 ∧ Consistent h2 head ∧ Consistent h2 head2 ∧
          list_move_tail x head h = .ok h3 ∧ Consistent h3 head ∧ Consistent h3 head2) ∧
    (∀ (h : Heap) (head list : Ptr) (es bs : List Ptr), ConsistentWith h head es →
        ConsistentWith h list bs → (∀ a ∈ head :: es, a ∉ list :: bs) →
        ∃ h1 h2 h3 h4, list_splice list head h = .ok h1 ∧ Consistent h1 head ∧
          list_splice_tail list head h = .ok h2 ∧ Consistent h2 head ∧
          list_splice_init list head h = .ok h3 ∧ Consistent h3 head ∧
          list_splice_tail_init list head h = .ok h4 ∧ Consistent h4 head) := by
  refine ⟨?_, ?_, ?_, ?_, ?_⟩
  · intro h head anchor x es hc ha hx0 hx
    obtain ⟨h2, h3, es2, es3, r2, w2, r3, w3, _, _⟩ :=
      wf_add_at ((consistentWith_iff _ _ _).1 hc) ha hx0 hx
    exact ⟨h2, h3, r2, consistent_of_wf w2, r3, consistent_of_wf w3⟩
  · intro h head x es hc hx
    obtain ⟨l1, l2, rfl⟩ := List.append_of_mem hx
    have hwf := (consistentWith_iff _ _ _).1 hc
    obtain ⟨r2, w2⟩ := wf_del hwf
    obtain ⟨h3, r3, w3, _, _, _⟩ := wf_del_init hwf
    exact ⟨_, h3, r2, consistent_of_wf w2, r3, consistent_of_wf w3⟩
  · intro h head x es hc hx
    obtain ⟨l1, l2, rfl⟩ := List.append_of_mem hx
    obtain ⟨h2, h3, r2, w2, r3, w3⟩ := wf_move_same ((consistentWith_iff _ _ _).1 hc)
    exact ⟨h2, h3, r2, consistent_of_wf w2, r3, consistent_of_wf w3⟩
  · intro h head head2 x es es2 hc hc2 hx hdis
    obtain ⟨l1, l2, rfl⟩ := List.append_of_mem hx
    obtain ⟨h2, h3, r2, w2, v2, r3, w3, v3⟩ :=
      wf_move_other ((consistentWith_iff _ _ _).1 hc) ((consistentWith_iff _ _ _).1 hc2) hdis
    exact ⟨h2, h3, r2, consistent_of_wf w2, consistent_of_wf v2, r3, consistent_of_wf w3,
      consistent_of_wf v3⟩
  · intro h head list es bs hc hc2 hdis
    obtain ⟨h1, h2, h3, h4, r1, w1, r2, w2, r3, w3, _, r4, w4, _⟩ :=
      wf_splice_any ((consistentWith_iff _ _ _).1 hc) ((consistentWith_iff _ _ _).1 hc2) hdis
    exact ⟨h1, h2, h3, h4, r1, consistent_of_wf w1, r2, consistent_of_wf w2,
      r3, consistent_of_wf w3, r4, consistent_of_wf w4⟩

/-- Witness of C17 on the sample heap, with the cycles `1, 2, 3` and `10, 11, 12`. -/
theorem consistency_preserved_witness :
    ConsistentWith sample_heap 1 [2, 3] ∧ ConsistentWith sample_heap 10 [11, 12] ∧
      (∃ h2 h3, list_add 4 2 sample_heap = .ok h2 ∧ Consistent h2 1 ∧
        list_add_tail 4 2 sample_heap = .ok h3 ∧ Consistent h3 1) ∧
      (∃ h2 h3, list_del 3 sample_heap = .ok h2 ∧ Consistent h2 1 ∧
        list_del_init 3 sample_heap = .ok h3 ∧ Consistent h3 1) ∧
      (∃ h2 h3, list_move 3 1 sample_heap = .ok h2 ∧ Consistent h2 1 ∧
        list_move_tail 3 1 sample_heap = .ok h3 ∧ Consistent h3 1) ∧
      (∃ h2 h3, list_move 11 1 sample_heap = .ok h2 ∧ Consistent h2 1 ∧ Consistent h2 10 ∧
        list_move_tail 11 1 sample_heap = .ok h3 ∧ Consistent h3 1 ∧ Consistent h3 10) ∧
      (∃ h1 h2 h3 h4, list_splice 10 1 sample_heap = .ok h1 ∧ Consistent h1 1 ∧
        list_splice_tail 10 1 sample_heap = .ok h2 ∧ Consistent h2 1 ∧
        list_splice_init 10 1 sample_heap = .ok h3 ∧ Consistent h3 1 ∧
        list_splice_tail_init 10 1 sample_heap = .ok h4 ∧ Consistent h4 1) :=
  ⟨by decide, by decide,
    consistency_preserved.1 sample_heap 1 2 4 [2, 3] (by decide) (by decide) (by decide)
      (by decide),
    consistency_preserved.2.1 sample_heap 1 3 [2, 3] (by decide) (by decide),
    consistency_preserved.2.2.1 sample_heap 1 3 [2, 3] (by decide) (by decide),
    consistency_preserved.2.2.2.1 sample_heap 1 10 11 [2, 3] [11, 12] (by decide) (by decide)
      (by decide) (by decide),
    consistency_preserved.2.2.2.2 sample_heap 1 10 [2, 3] [11, 12] (by decide) (by decide)
      (by decide)⟩

/-! ## Ring membership of the nodes involved in an operation -/

theorem inRing_of_wf {h : Heap} {head y : Ptr} {es : List Ptr} (hwf : WellFormed h head es)
    (hy : y ∈ head :: es) : InRing h y := ⟨head, es, hwf, hy⟩

/-- A ring member is non-null, has non-null neighbours that are ring members, and its
neighbours point back at it. -/
theorem inRing_links {h : Heap} {y : Ptr} (hy : InRing h y) :
    y ≠ NULL ∧ (h y).next ≠ NULL ∧ (h y).prev ≠ NULL ∧
      InRing h (h y).next ∧ InRing h (h y).prev ∧
      (h (h y).next).prev = y ∧ (h (h y).prev).next = y := by
  obtain ⟨head, es, hwf, hm⟩ := hy
  obtain ⟨a, b, c, d, e⟩ := wf_member_links hwf hm
  obtain ⟨hn, hp⟩ := wf_closed hwf y hm
  exact ⟨a, c, b, inRing_of_wf hwf hn, inRing_of_wf hwf hp, e, d⟩

/-- The entries of a well-formed list are determined by the heap and the head. -/
theorem wf_unique {h : Heap} {head : Ptr} {es es2 : List Ptr} (h1 : WellFormed h head es)
    (h2 : WellFormed h head es2) : es = es2 := by
  have e1 := @forward_of_wf _ _ _ h1 (es.length + es2.length + 1) (by omega)
  have e2 := @forward_of_wf _ _ _ h2 (es.length + es2.length + 1) (by omega)
  rw [e1] at e2
  injection e2

/-- C15 (counterexample). In zeroed memory, after `INIT_LIST_HEAD(1)`, `INIT_LIST_HEAD(2)`
and `list_add(2, 1)`, the call `list_del(2)` leaves node `2` with `next == NULL` and
`prev == NULL`: it is not a self-loop and not a member of a ring. On the sample heap,
`list_splice(10, 1)` leaves the source head `10` outside every ring. -/
theorem list_del_leaves_null :
    (∃ h2, (INIT_LIST_HEAD 1 zero_heap >>= fun h => INIT_LIST_HEAD 2 h >>= fun h =>
          list_add 2 1 h >>= fun h => list_del 2 h) = .ok h2 ∧
      (h2 2).next = NULL ∧ (h2 2).prev = NULL ∧
      ¬ ((h2 2).next = 2 ∧ (h2 2).prev = 2) ∧ ¬ InRing h2 2) ∧
    (∃ h1, list_splice 10 1 sample_heap = .ok h1 ∧ ¬ InRing h1 10) := by
  refine ⟨⟨_, rfl, rfl, rfl, by decide, fun hr => (inRing_links hr).2.1 rfl⟩, ?_⟩
  have hA : WellFormed sample_heap 1 [2, 3] := by decide
  have hB : WellFormed sample_heap 10 [11, 12] := by decide
  have hdis : ∀ a ∈ (1 : Ptr) :: [2, 3], a ∉ (10 : Ptr) :: [11, 12] := by decide
  obtain ⟨hemp, hr1, _, _, _⟩ := wf_splice hA hB (by decide) hdis
  obtain ⟨_, _, _, _, _, _, _, e8, _, _⟩ :=
    @splice_stale sample_heap 1 10 1 (sample_heap 1).next [2, 3] [11, 12] hB (by decide) hdis
      (by decide) (by decide)
  refine ⟨_, ?_, fun hr => e8 (inRing_links hr).2.2.2.2.2.1⟩
  simp [list_splice, hemp, load_next_ok hA.1, hr1]

/-- C15 (amended). A member of a well-formed ring is non-null and has non-null `next` and
`prev`, which are members too, and the entries of the ring anchored at a head are unique.
`INIT_LIST_HEAD` makes a one-node ring. After `list_add`, `list_add_tail`, `list_del_init`,
`list_move`, `list_move_tail`, `list_splice_init` and `list_splice_tail_init` on well-formed
lists every node involved is a member of a well-formed ring, the node removed by
`list_del_init` and the source head of the `_init` splices being self-loops. After
`list_del` the remaining nodes are ring members and the removed node has
`next == prev == NULL`. After `list_splice` and `list_splice_tail` of a non-empty source all
nodes of the target and all moved entries are ring members, while the source head keeps its
old, non-null `next` and `prev` and is not a member of a ring. `list_splice` and
`list_splice_tail` of an empty source return the heap unchanged: every node of the target and
the source head, a self-loop, are ring members. -/
theorem ring_membership_after_ops :
    (∀ (h : Heap) (y : Ptr), InRing h y →
        y ≠ NULL ∧ (h y).next ≠ NULL ∧ (h y).prev ≠ NULL ∧
        InRing h (h y).next ∧ InRing h (h y).prev) ∧
    (∀ (h : Heap) (head : Ptr) (es es2 : List Ptr),
        WellFormed h head es → WellFormed h head es2 → es = es2) ∧
    (∀ (h : Heap) (x : Ptr), x ≠ NULL →
        ∃ h2, INIT_LIST_HEAD x h = .ok h2 ∧ InRing h2 x ∧ (h2 x).next = x ∧ (h2 x).prev = x) ∧
    (∀ (h : Heap) (head anchor x : Ptr) (es : List Ptr), WellFormed h head es →
        anchor ∈ head :: es → x ≠ NULL → x ∉ head :: es →
        ∃ h2 h3, list_add x anchor h = .ok h2 ∧ (∀ y ∈ x :: head :: es, InRing h2 y) ∧
          list_add_tail x anchor h = .ok h3 ∧ (∀ y ∈ x :: head :: es, InRing h3 y)) ∧
    (∀ (h : Heap) (head x : Ptr) (l1 l2 : List Ptr), WellFormed h head (l1 ++ x :: l2) →
        ∃ h2, list_del_init x h = .ok h2 ∧ (∀ y ∈ head :: (l1 ++ x :: l2), InRing h2 y) ∧
          (h2 x).next = x ∧ (h2 x).prev = x) ∧
    (∀ (h : Heap) (head x : Ptr) (l1 l2 : List Ptr), WellFormed h head (l1 ++ x :: l2) →
        ∃ h2 h3, list_move x head h = .ok h2 ∧
          (∀ y ∈ head :: (l1 ++ x :: l2), InRing h2 y) ∧
          list_move_tail x head h = .ok h3 ∧
          (∀ y ∈ head :: (l1 ++ x :: l2), InRing h3 y)) ∧
    (∀ (h : Heap) (head head2 x : Ptr) (es l1 l2 : List Ptr), WellFormed h head es →
        WellFormed h head2 (l1 ++ x :: l2) →
        (∀ a ∈ head :: es, a ∉ head2 :: (l1 ++ x :: l2)) →
        ∃ h2 h3, list_move x head h = .ok h2 ∧
          (∀ y ∈ (head :: es) ++ (head2 :: (l1 ++ x :: l2)), InRing h2 y) ∧
          list_move_tail x head h = .ok h3 ∧
          (∀ y ∈ (head :: es) ++ (head2 :: (l1 ++ x :: l2)), InRing h3 y)) ∧
    (∀ (h : Heap) (head list : Ptr) (as bs : List Ptr), WellFormed h head as →
        WellFormed h list bs → (∀ a ∈ head :: as, a ∉ list :: bs) →
        ∃ h3 h4, list_splice_init list head h = .ok h3 ∧
          (∀ y ∈ (head :: as) ++ (list :: bs), InRing h3 y) ∧
          (h3 list).next = list ∧ (h3 list).prev = list ∧
          list_splice_tail_init list head h = .ok h4 ∧
          (∀ y ∈ (head :: as) ++ (list :: bs), InRing h4 y) ∧
          (h4 list).next = list ∧ (h4 list).prev = list) ∧
    (∀ (h : Heap) (head x : Ptr) (l1 l2 : List Ptr), WellFormed h head (l1 ++ x :: l2) →
        ∃ h2, list_del x h = .ok h2 ∧ (∀ y ∈ head :: (l1 ++ l2), InRing h2 y) ∧
          (h2 x).next = NULL ∧ (h2 x).prev = NULL) ∧
    (∀ (h : Heap) (head list : Ptr) (as bs : List Ptr), WellFormed h head as →
        WellFormed h list bs → bs ≠ [] → (∀ a ∈ head :: as, a ∉ list :: bs) →
        ∃ h1 h2, list_splice list head h = .ok h1 ∧ (∀ y ∈ head :: (as ++ bs), InRing h1 y) ∧
          (h1 list).next = (h list).next ∧ (h1 list).prev = (h list).prev ∧
          (h1 list).next ≠ NULL ∧ (h1 list).prev ≠ NULL ∧ ¬ InRing h1 list ∧
          list_splice_tail list head h = .ok h2 ∧ (∀ y ∈ head :: (as ++ bs), InRing h2 y) ∧
          (h2 list).next = (h list).next ∧ (h2 list).prev = (h list).prev ∧
          (h2 list).next ≠ NULL ∧ (h2 list).prev ≠ NULL ∧ ¬ InRing h2 list) ∧
    (∀ (h : Heap) (head list : Ptr) (as : List Ptr), WellFormed h head as →
        WellFormed h list [] → (∀ a ∈ head :: as, a ∉ [list]) →
        list_splice list head h = .ok h ∧ list_splice_tail list head h = .ok h ∧
          (∀ y ∈ (head :: as) ++ [list], InRing h y) ∧
          (h list).next = list ∧ (h list).prev = list) := by
  refine ⟨?_, ?_, ?_, ?_, ?_, ?_, ?_, ?_, ?_, ?_, ?_⟩
  · intro h y hy
    obtain ⟨a, b, c, d, e, _, _⟩ := inRing_links hy
    exact ⟨a, b, c, d, e⟩
  · intro h head es es2 h1 h2
    exact wf_unique h1 h2
  · intro h x hx
    obtain ⟨hinit, hw⟩ := init_wf hx h
    exact ⟨_, hinit, inRing_of_wf hw (by simp), by simp, by simp⟩
  · intro h head anchor x es hwf ha hx0 hx
    obtain ⟨h2, h3, es2, es3, r2, w2, r3, w3, m2, m3⟩ := wf_add_at hwf ha hx0 hx
    refine ⟨h2, h3, r2, fun y hy => inRing_of_wf w2 ((m2 y).2 ?_), r3,
      fun y hy => inRing_of_wf w3 ((m3 y).2 ?_)⟩
    · simpa using hy
    · simpa using hy
  · intro h head x l1 l2 hwf
    obtain ⟨h2, r, w, wx, e1, e2⟩ := wf_del_init hwf
    refine ⟨h2, r, fun y hy => ?_, e1, e2⟩
    by_cases hyx : y = x
    · rw [hyx]; exact inRing_of_wf wx (by simp)
    · refine inRing_of_wf w ?_
      simp only [List.mem_cons, List.mem_append] at hy ⊢
      tauto
  · intro h head x l1 l2 hwf
    obtain ⟨h2, h3, r2, w2, r3, w3⟩ := wf_move_same hwf
    refine ⟨h2, h3, r2, fun y hy => inRing_of_wf w2 ?_, r3, fun y hy => inRing_of_wf w3 ?_⟩
    · simp only [List.mem_cons, List.mem_append] at hy ⊢; tauto
    · simp only [List.mem_cons, List.mem_append, List.mem_singleton] at hy ⊢; tauto
  · intro h head head2 x es l1 l2 hA hB hdis
    obtain ⟨h2, h3, r2, w2, v2, r3, w3, v3⟩ := wf_move_other hA hB hdis
    refine ⟨h2, h3, r2, fun y hy => ?_, r3, fun y hy => ?_⟩
    · by_cases hm : y ∈ head :: x :: es
      · exact inRing_of_wf w2 hm
      · refine inRing_of_wf v2 ?_
        simp only [List.mem_cons, List.mem_append, not_or] at hy hm ⊢
        tauto
    · by_cases hm : y ∈ head :: (es ++ [x])
      · exact inRing_of_wf w3 hm
      · refine inRing_of_wf v3 ?_
        simp only [List.mem_cons, List.mem_append, List.mem_singleton, not_or] at hy hm ⊢
        tauto
  · intro h head list as bs hA hB hdis
    obtain ⟨_, _, h3, h4, _, _, _, _, r3, w3, v3, r4, w4, v4⟩ := wf_splice_any hA hB hdis
    have n3 : (h3 list).next = list := (wf_next_eq_head_iff v3).2 rfl
    have p3 : (h3 list).prev = list := by
      have := wf_prev_head v3
      simpa using this.symm
    have n4 : (h4 list).next = list := (wf_next_eq_head_iff v4).2 rfl
    have p4 : (h4 list).prev = list := by
      have := wf_prev_head v4
      simpa using this.symm
    refine ⟨h3, h4, r3, fun y hy => ?_, n3, p3, r4, fun y hy => ?_, n4, p4⟩
    · by_cases hyl : y = list
      · rw [hyl]; exact inRing_of_wf v3 (by simp)
      · refine inRing_of_wf w3 ?_
        simp only [List.mem_cons, List.mem_append] at hy ⊢
        tauto
    · by_cases hyl : y = list
      · rw [hyl]; exact inRing_of_wf v4 (by simp)
      · refine inRing_of_wf w4 ?_
        simp only [List.mem_cons, List.mem_append] at hy ⊢
        tauto
  · intro h head x l1 l2 hwf
    obtain ⟨r, w⟩ := wf_del hwf
    exact ⟨_, r, fun y hy => inRing_of_wf w hy, by simp [list_del_heap],
      by simp [list_del_heap]⟩
  · intro h head list as bs hA hB hne hdis
    obtain ⟨hemp, hr1, hw1, hr2, hw2⟩ := wf_splice hA hB hne hdis
    have hhm : head ∈ head :: as := List.mem_cons_self _ _
    obtain ⟨hnm, hpm⟩ := wf_closed hA head hhm
    obtain ⟨a1, a2, _, _, _, _, _, a8, _, _⟩ := splice_stale hB hne hdis hhm hnm
    obtain ⟨b1, b2, _, _, _, _, _, b8, _, _⟩ := splice_stale hB hne hdis hpm hhm
    obtain ⟨_, lp0, ln0, _, _⟩ := wf_member_links hB (List.mem_cons_self _ _)
    refine ⟨splice_heap (h list).next (h list).prev head (h head).next h,
      splice_heap (h list).next (h list).prev (h head).prev head h,
      ?_, fun y hy => inRing_of_wf hw1 ?_, a1, a2, by rw [a1]; exact ln0,
      by rw [a2]; exact lp0, fun hr => a8 (inRing_links hr).2.2.2.2.2.1,
      ?_, fun y hy => inRing_of_wf hw2 hy, b1, b2, by rw [b1]; exact ln0,
      by rw [b2]; exact lp0, fun hr => b8 (inRing_links hr).2.2.2.2.2.1⟩
    · simp [list_splice, hemp, load_next_ok hA.1, hr1]
    · simp only [List.mem_cons, List.mem_append] at hy ⊢; tauto
    · simp [list_splice_tail, hemp, load_prev_ok hA.1, hr2]
  · intro h head list as hA hB hdis
    have hlA : list ∉ head :: as := fun m => hdis list m (by simp)
    obtain ⟨e1, e2, e3, _⟩ := empty_beside hA hB hlA
    obtain ⟨n1, n2, _, _⟩ := splice_of_empty e3 head
    refine ⟨n1, n2, fun y hy => ?_, e1, e2⟩
    rcases List.mem_append.1 hy with hy | hy
    · exact inRing_of_wf hA hy
    · exact inRing_of_wf hB (by simpa using hy)

/-- Witness of C15 (amended) on the sample heap: entry `2` of the list `2, 3` anchored at
`1` is removed with `list_del_init` and with `list_del`, and the list `11, 12` anchored at
`10` and the empty list anchored at `20` are spliced into the list anchored at `1`. -/
theorem ring_membership_after_ops_witness :
    WellFormed sample_heap 1 ([] ++ 2 :: [3]) ∧ WellFormed sample_heap 1 [2, 3] ∧
      WellFormed sample_heap 10 [11, 12] ∧ WellFormed sample_heap 20 [] ∧
      (∃ h2, list_del_init 2 sample_heap = .ok h2 ∧
        (∀ y ∈ 1 :: ([] ++ 2 :: [3]), InRing h2 y) ∧ (h2 2).next = 2 ∧ (h2 2).prev = 2) ∧
      (∃ h2, list_del 2 sample_heap = .ok h2 ∧ (∀ y ∈ 1 :: ([] ++ [3]), InRing h2 y) ∧
        (h2 2).next = NULL ∧ (h2 2).prev = NULL) ∧
      (∃ h1 h2, list_splice 10 1 sample_heap = .ok h1 ∧
        (∀ y ∈ 1 :: ([2, 3] ++ [11, 12]), InRing h1 y) ∧
        (h1 10).next = (sample_heap 10).next ∧ (h1 10).prev = (sample_heap 10).prev ∧
        (h1 10).next ≠ NULL ∧ (h1 10).prev ≠ NULL ∧ ¬ InRing h1 10 ∧
        list_splice_tail 10 1 sample_heap = .ok h2 ∧
        (∀ y ∈ 1 :: ([2, 3] ++ [11, 12]), InRing h2 y) ∧
        (h2 10).next = (sample_heap 10).next ∧ (h2 10).prev = (sample_heap 10).prev ∧
        (h2 10).next ≠ NULL ∧ (h2 10).prev ≠ NULL ∧ ¬ InRing h2 10) ∧
      (list_splice 20 1 sample_heap = .ok sample_heap ∧
        list_splice_tail 20 1 sample_heap = .ok sample_heap ∧
        (∀ y ∈ (1 :: [2, 3]) ++ [20], InRing sample_heap y) ∧
        (sample_heap 20).next = 20 ∧ (sample_heap 20).prev = 20) :=
  ⟨by decide, by decide, by decide, by decide,
    ring_membership_after_ops.2.2.2.2.1 sample_heap 1 2 [] [3] (by decide),
    ring_membership_after_ops.2.2.2.2.2.2.2.2.1 sample_heap 1 2 [] [3] (by decide),
    ring_membership_after_ops.2.2.2.2.2.2.2.2.2.1 sample_heap 1 10 [2, 3] [11, 12] (by decide)
      (by decide) (by decide) (by decide),
    ring_membership_after_ops.2.2.2.2.2.2.2.2.2.2 sample_heap 1 20 [2, 3] (by decide)
      (by decide) (by decide)⟩

end LinuxList
